import Mathlib

/-!
Shallow embedding of the sketch-cutout pipeline of `src/imageProcessor.ts`
(class `ImageProcessor`): binarization by luminance (`createMask`),
4-connected component labeling plus object selection (`findObjectContours`),
corner-seeded flood fill (`floodFill`) and the final compositing loop of
`process`.  Buffers are modelled pixel-wise (the TypeScript code only ever
accesses the flat RGBA array at pixel-aligned offsets `4 * (y * width + x)`),
JavaScript numbers by exact arithmetic (`ℤ` for coordinates, `ℚ` for the
box-center computations, which are exact in binary64 for integer bounds;
the luminance computation, whose rounding is observable at the threshold,
by an exact scaled-integer model of IEEE-754 binary64 evaluation), and the
two explicit-stack loops by fuel-indexed structural recursion, with enough
fuel that the loops always drain their stacks (proved below).
-/

namespace Sketch

/-- One RGBA cell of an `ImageData` buffer. -/
structure Pix where
  r : ℕ
  g : ℕ
  b : ℕ
  a : ℕ
deriving DecidableEq

/-- The line marker written by `createMask` and `findObjectContours`. -/
def blackPix : Pix := ⟨0, 0, 0, 255⟩

/-- The background-candidate / interior marker. -/
def whitePix : Pix := ⟨255, 255, 255, 255⟩

/-- The exterior marker written by `floodFill` (red). -/
def redPix : Pix := ⟨255, 0, 0, 255⟩

/-- The transparent pixel written by the compositing loop. -/
def clearPix : Pix := ⟨0, 0, 0, 0⟩

/-- A decoded pixel buffer: pixel `(x, y)` sits at index `y * width + x`. -/
structure ImageData where
  width : ℕ
  height : ℕ
  data : List Pix
deriving DecidableEq

/-- Read pixel cell `i`; out-of-range reads return the all-zero pixel. -/
def getPix (d : List Pix) (i : ℕ) : Pix := d.getD i ⟨0, 0, 0, 0⟩

/-- Flat cell index of coordinate `(x, y)` in a `w`-wide buffer
(`idx = y * width + x` in the source). -/
def idxOf (w : ℕ) (x y : ℤ) : ℕ := (y * w + x).toNat

/-- The bounds test `x >= 0 && x < width && y >= 0 && y < height` used by
both stack loops. -/
def inRange (w h : ℕ) (p : ℤ × ℤ) : Prop :=
  0 ≤ p.1 ∧ p.1 < (w : ℤ) ∧ 0 ≤ p.2 ∧ p.2 < (h : ℤ)

instance (w h : ℕ) (p : ℤ × ℤ) : Decidable (inRange w h p) := instDecidableAnd

/-! The luminance `0.2126 * r + 0.7152 * g + 0.0722 * b` of `createMask` is
computed by JavaScript in IEEE-754 binary64 ("double") arithmetic: each
decimal literal, each product and each (left-associated) sum is rounded to
the nearest double, ties to even.  For byte channels every double arising in
this computation is a nonnegative integer multiple of `2 ^ (-56)` (the
values lie in `[2 ^ (-4), 2 ^ 9)`, so their ulps are at least `2 ^ (-56)`),
hence the computation is modelled exactly by naturals scaled by `2 ^ 56`. -/

/-- Fuel-indexed floor of `log 2` (fuel `9999` covers every value arising
here: the recursion depth is the bit length of the argument). -/
def lg2F : ℕ → ℕ → ℕ
  | 0, _ => 0
  | fuel + 1, n => if n < 2 then 0 else lg2F fuel (n / 2) + 1

/-- `⌊log 2 n⌋` (and `0` at `0`), kernel-reducible. -/
def lg2 (n : ℕ) : ℕ := lg2F 9999 n

/-- Round `p / q` to the nearest IEEE-754 binary64 value, ties to even,
returned scaled by `2 ^ 56`: the significand keeps 53 bits, so a positive
value with `⌊log 2⌋ = e` is rounded to a multiple of `2 ^ (e - 52)`.  Exact
for results whose ulp is at least `2 ^ (-56)` — every value arising in the
luminance computation on byte channels. -/
def rnd64Q (p q : ℕ) : ℕ :=
  if p = 0 ∨ q = 0 then 0 else
  let n := p * 2 ^ 56 / q
  let r := p * 2 ^ 56 % q
  let e := lg2 n
  let g := 2 ^ (e - 52)
  let m := n / g
  let s := n % g
  if 2 * (s * q + r) < g * q then m * g
  else if g * q < 2 * (s * q + r) then (m + 1) * g
  else (if m % 2 = 0 then m else m + 1) * g

/-- Round an exact intermediate value (already scaled by `2 ^ 56`) to the
nearest binary64. -/
def rnd64 (n : ℕ) : ℕ := rnd64Q n (2 ^ 56)

/-- The binary64 value of the literal `0.2126`, scaled by `2 ^ 56`. -/
def c2126 : ℕ := rnd64Q 2126 10000

/-- The binary64 value of the literal `0.7152`, scaled by `2 ^ 56`. -/
def c7152 : ℕ := rnd64Q 7152 10000

/-- The binary64 value of the literal `0.0722`, scaled by `2 ^ 56`. -/
def c0722 : ℕ := rnd64Q 722 10000

/-- `0.2126 * r + 0.7152 * g + 0.0722 * b` as the source evaluates it: each
product of a rounded constant with an (exactly representable) integer
channel is rounded, then the two sums are rounded left to right.  The
result is the final double scaled by `2 ^ 56`. -/
def lum64 (r g b : ℕ) : ℕ :=
  rnd64 (rnd64 (rnd64 (c2126 * r) + rnd64 (c7152 * g)) + rnd64 (c0722 * b))

/-- The threshold `100` scaled by `2 ^ 56`; `100` is exactly representable
and comparison of binary64 values is exact. -/
def thr64 : ℕ := 100 * 2 ^ 56

/-- The luminance formula of the spec read in exact (real) arithmetic.
Modelled from the claim's words, not from the source: the source evaluates
the formula in binary64, and the two readings differ on some byte triples
(see the counterexample to C6's exact reading below). -/
def luminanceSpec (r g b : ℕ) : ℚ := 0.2126 * r + 0.7152 * g + 0.0722 * b

/-- Per-pixel branch of `createMask` (threshold 100): the binary64
luminance against the threshold. -/
def maskPix (p : Pix) : Pix :=
  if lum64 p.r p.g p.b < thr64 then blackPix else whitePix

/-- `createMask`: binarize the RGBA buffer into the line / candidate mask. -/
def createMask (img : ImageData) : ImageData :=
  ⟨img.width, img.height, img.data.map maskPix⟩

/-- A labeled component as in `src/types.ts`: member pixels and the running
bounding box. -/
structure Component where
  pixels : List (ℤ × ℤ)
  minX : ℤ
  minY : ℤ
  maxX : ℤ
  maxY : ℤ
deriving DecidableEq

/-- State of the inner DFS of the component-labeling pass. -/
structure DfsState where
  stack : List (ℤ × ℤ)
  visited : List Bool
  pixels : List (ℤ × ℤ)
  minX : ℤ
  minY : ℤ
  maxX : ℤ
  maxY : ℤ

/-- The neighbor array `[[cx+1,cy],[cx-1,cy],[cx,cy+1],[cx,cy-1]]`. -/
def neighborsOf (x y : ℤ) : List (ℤ × ℤ) := [(x + 1, y), (x - 1, y), (x, y + 1), (x, y - 1)]

/-- Body of the neighbor loop of the labeling DFS: bounds-check the
neighbor, and if it is a dark (`r = 0`) unvisited cell, mark it visited and
push it. -/
def tryPush (w h : ℕ) (data : List Pix) (s : DfsState) (n : ℤ × ℤ) : DfsState :=
  if inRange w h n then
    let nIdx := idxOf w n.1 n.2
    if (getPix data nIdx).r = 0 ∧ s.visited.getD nIdx false = false then
      { s with visited := s.visited.set nIdx true, stack := n :: s.stack }
    else s
  else s

/-- One popped pixel's neighbor scan. -/
def dfsStep (w h : ℕ) (data : List Pix) (cx cy : ℤ) (s : DfsState) : DfsState :=
  (neighborsOf cx cy).foldl (tryPush w h data) s

/-- The `while (stack.length > 0)` DFS of `findObjectContours`: pop a pixel,
record it (the JS `pixels.push` appends; we cons, which preserves membership
and multiplicity), extend the bounding box, then scan its four neighbors.
Fuel-indexed; `w * h + 1` fuel is proved sufficient below. -/
def dfsLoop (w h : ℕ) (data : List Pix) : ℕ → DfsState → DfsState
  | 0, s => s
  | fuel + 1, s =>
    match s.stack with
    | [] => s
    | (cx, cy) :: rest =>
      let s1 : DfsState :=
        { stack := rest
          visited := s.visited
          pixels := (cx, cy) :: s.pixels
          minX := min s.minX cx
          minY := min s.minY cy
          maxX := max s.maxX cx
          maxY := max s.maxY cy }
      dfsLoop w h data fuel (dfsStep w h data cx cy s1)

/-- Row-major scan body of the labeling pass: on a dark unvisited cell,
mark it visited and run the DFS from it, appending the found component. -/
def scanStep (w h : ℕ) (data : List Pix) (acc : List Bool × List Component) (c : ℕ × ℕ) :
    List Bool × List Component :=
  let idx := c.2 * w + c.1
  if (getPix data idx).r = 0 ∧ acc.1.getD idx false = false then
    let s0 : DfsState := ⟨[((c.1 : ℤ), (c.2 : ℤ))], acc.1.set idx true, [], (w : ℤ), (h : ℤ), -1, -1⟩
    let s1 := dfsLoop w h data (w * h + 1) s0
    (s1.visited, acc.2 ++ [⟨s1.pixels, s1.minX, s1.minY, s1.maxX, s1.maxY⟩])
  else acc

/-- The row-major coordinate sequence `for y ... for x ...`. -/
def coordList (w h : ℕ) : List (ℕ × ℕ) :=
  (List.range h).flatMap fun y => (List.range w).map fun x => (x, y)

/-- The CCL pass of `findObjectContours`: components in discovery order. -/
def ccl (w h : ℕ) (data : List Pix) : List Component :=
  ((coordList w h).foldl (scanStep w h data) (List.replicate (w * h) false, [])).2

/-- Bounding-box area `(maxX - minX) * (maxY - minY)`. -/
def area (c : Component) : ℤ := (c.maxX - c.minX) * (c.maxY - c.minY)

/-- One step of the `maxArea` scan (strict-greater update). -/
def selStep (acc : Component × ℤ) (c : Component) : Component × ℤ :=
  if area c > acc.2 then (c, area c) else acc

/-- The mainFrame selection: start from `components[0]` and `maxArea = -1`,
scan all components left to right. -/
def selectMain (first : Component) (comps : List Component) : Component :=
  (comps.foldl selStep (first, -1)).1

/-- `centerX = comp.minX + (comp.maxX - comp.minX) / 2`, exact. -/
def centerX (c : Component) : ℚ := (c.minX : ℚ) + ((c.maxX : ℚ) - (c.minX : ℚ)) / 2

/-- `centerY = comp.minY + (comp.maxY - comp.minY) / 2`, exact. -/
def centerY (c : Component) : ℚ := (c.minY : ℚ) + ((c.maxY : ℚ) - (c.minY : ℚ)) / 2

/-- The four inclusive comparisons of the secondary-component test. -/
def centerInBox (c mf : Component) : Prop :=
  centerX c ≥ (mf.minX : ℚ) ∧ centerX c ≤ (mf.maxX : ℚ) ∧
  centerY c ≥ (mf.minY : ℚ) ∧ centerY c ≤ (mf.maxY : ℚ)

instance (c mf : Component) : Decidable (centerInBox c mf) := instDecidableAnd

/-- Paint the member pixels of one component black in the object mask. -/
def paintPixels (w : ℕ) (d : List Pix) (ps : List (ℤ × ℤ)) : List Pix :=
  ps.foldl (fun acc p => acc.set (idxOf w p.1 p.2) blackPix) d

/-- Paint every retained component. -/
def paintComponents (w : ℕ) (d : List Pix) (cs : List Component) : List Pix :=
  cs.foldl (fun acc c => paintPixels w acc c.pixels) d

/-- `objectComponents`: the main frame plus each other component whose box
center lies (inclusively) inside the main frame's box.  The JS `===` test
skips the main frame itself; on labeler output components are pairwise
distinct, so structural equality coincides with it. -/
def retained (mf : Component) (comps : List Component) : List Component :=
  mf :: comps.filter fun c => !(decide (c = mf)) && decide (centerInBox c mf)

/-- `findObjectContours`: label components, select the main frame, retain
center-contained secondaries, and paint them on an all-white mask
(`newMask.data.fill(255)`). -/
def findObjectContours (m : ImageData) : ImageData :=
  let comps := ccl m.width m.height m.data
  let blank : List Pix := List.replicate (m.width * m.height) whitePix
  match comps with
  | [] => ⟨m.width, m.height, blank⟩
  | c0 :: _ =>
    ⟨m.width, m.height, paintComponents m.width blank (retained (selectMain c0 comps) comps)⟩

/-- The fill-expansion test `data[i]===255 && data[i+1]===255 && data[i+2]===255`. -/
def isWhite (p : Pix) : Bool := p.r == 255 && p.g == 255 && p.b == 255

/-- The `while (stack.length)` loop of `floodFill`: pop, bounds-check,
and if the cell is white paint it red and push the four neighbors
(unchecked, as in the source).  The JS stack top is the last pushed
neighbor `[x, y-1]`, hence the cons order. -/
def ffLoop (w h : ℕ) : ℕ → List (ℤ × ℤ) → List Pix → List Pix
  | 0, _, d => d
  | fuel + 1, stack, d =>
    match stack with
    | [] => d
    | (x, y) :: rest =>
      if inRange w h (x, y) then
        let i := idxOf w x y
        if isWhite (getPix d i) then
          ffLoop w h fuel ((x, y - 1) :: (x, y + 1) :: (x - 1, y) :: (x + 1, y) :: rest)
            (d.set i redPix)
        else ffLoop w h fuel rest d
      else ffLoop w h fuel rest d

/-- Fuel sufficient for `ffLoop` started from one seed (proved below). -/
def ffFuel (m : ImageData) : ℕ := 4 * (m.width * m.height) + 1

/-- `floodFill`: no-op when the seed cell is a line (`r = 0`) or already
red; otherwise run the stack loop from the seed. -/
def floodFill (m : ImageData) (sx sy : ℤ) : ImageData :=
  let sp := getPix m.data (idxOf m.width sx sy)
  if sp.r = 0 ∨ (sp.r = 255 ∧ sp.g = 0) then m
  else ⟨m.width, m.height, ffLoop m.width m.height (ffFuel m) [(sx, sy)] m.data⟩

/-- The per-pixel compositing branch of `process` step 5. -/
def compositePix (p : Pix) : Pix :=
  if p.r = 255 ∧ p.g = 0 then clearPix
  else if p.r = 0 then blackPix
  else whitePix

/-- Steps 2-5 of `process` on a decoded buffer (decode, canvas and PNG
encoding are external collaborators). -/
def processCore (img : ImageData) : ImageData :=
  let binaryMask := createMask img
  let objectMask := findObjectContours binaryMask
  let f1 := floodFill objectMask 0 0
  let f2 := floodFill f1 ((f1.width : ℤ) - 1) 0
  let f3 := floodFill f2 0 ((f2.height : ℤ) - 1)
  let f4 := floodFill f3 ((f3.width : ℤ) - 1) ((f3.height : ℤ) - 1)
  ⟨f4.width, f4.height, f4.data.map compositePix⟩

/-- Running the seed calls of a whole seed list left to right. -/
def fillSeq (m : ImageData) (l : List (ℤ × ℤ)) : ImageData :=
  l.foldl (fun acc s => floodFill acc s.1 s.2) m

/-- The four corner seeds, in the order `process` runs them. -/
def cornerSeeds (w h : ℕ) : List (ℤ × ℤ) :=
  [(0, 0), ((w : ℤ) - 1, 0), (0, (h : ℤ) - 1), ((w : ℤ) - 1, (h : ℤ) - 1)]

/-- 4-adjacency (up/down/left/right). -/
def adj (p q : ℤ × ℤ) : Prop :=
  (q.1 = p.1 + 1 ∧ q.2 = p.2) ∨ (q.1 = p.1 - 1 ∧ q.2 = p.2) ∨
  (q.1 = p.1 ∧ q.2 = p.2 + 1) ∨ (q.1 = p.1 ∧ q.2 = p.2 - 1)

/-- Reachability through cells satisfying `good`, by 4-connected steps;
`Reach good p p` already requires `good p`. -/
inductive Reach (good : ℤ × ℤ → Prop) : ℤ × ℤ → ℤ × ℤ → Prop
  | refl (p : ℤ × ℤ) (hp : good p) : Reach good p p
  | step {p q r : ℤ × ℤ} (h : Reach good p q) (ha : adj q r) (hr : good r) : Reach good p r

/-- A fillable cell: in range and white (in the `isWhite` sense). -/
def goodW (w h : ℕ) (d : List Pix) (p : ℤ × ℤ) : Prop :=
  inRange w h p ∧ isWhite (getPix d (idxOf w p.1 p.2)) = true

/-- A line cell: in range with `r = 0`, the test of the labeling pass. -/
def goodB (w h : ℕ) (d : List Pix) (p : ℤ × ℤ) : Prop :=
  inRange w h p ∧ (getPix d (idxOf w p.1 p.2)).r = 0

instance (w h : ℕ) (d : List Pix) (p : ℤ × ℤ) : Decidable (goodB w h d p) :=
  instDecidableAnd

/-- The 1-pixel-wide square ring over rows and columns 2..7. -/
def onRing (x y : ℕ) : Prop :=
  ((x = 2 ∨ x = 7) ∧ 2 ≤ y ∧ y ≤ 7) ∨ ((y = 2 ∨ y = 7) ∧ 2 ≤ x ∧ x ≤ 7)

instance (x y : ℕ) : Decidable (onRing x y) := instDecidableOr

/-- The region strictly inside the ring: rows and columns 3..6. -/
def insideRing (x y : ℕ) : Prop := 3 ≤ x ∧ x ≤ 6 ∧ 3 ≤ y ∧ y ≤ 6

instance (x y : ℕ) : Decidable (insideRing x y) := instDecidableAnd

/-- Scenario B input: a 10×10 image, black exactly on the ring. -/
def inputC7 : ImageData :=
  ⟨10, 10, (List.range 100).map fun i =>
    if onRing (i % 10) (i / 10) then ⟨0, 0, 0, 255⟩ else ⟨255, 255, 255, 255⟩⟩

/-- Scenario B expected output: ring opaque black, inside opaque white,
outside transparent. -/
def expectedC7 : ImageData :=
  ⟨10, 10, (List.range 100).map fun i =>
    if onRing (i % 10) (i / 10) then blackPix
    else if insideRing (i % 10) (i / 10) then whitePix
    else clearPix⟩

/-- A uniformly light 2×2 image (every pixel above the threshold). -/
def lightImg : ImageData := ⟨2, 2, List.replicate 4 whitePix⟩

/-- A 3×1 mask with two single-pixel components. -/
def twoCompImg : ImageData := ⟨3, 1, [blackPix, whitePix, blackPix]⟩

/-- The first (main-frame) component of `twoCompImg`. -/
def compA : Component := ⟨[(0, 0)], 0, 0, 0, 0⟩

/-- The secondary component of `twoCompImg`. -/
def compB : Component := ⟨[(2, 0)], 2, 0, 2, 0⟩

/-- Bounds-checked mirror of `ffLoop`: every buffer access performed by the
loop body is guarded, returning `none` if any read or write would fall
outside the buffer.  The pushed neighbors are deliberately unchecked, as in
the source: out-of-range coordinates may sit on the stack and are filtered
by the range test when popped. -/
def ffLoopChk (w h : ℕ) : ℕ → List (ℤ × ℤ) → List Pix → Option (List Pix)
  | 0, _, d => some d
  | fuel + 1, stack, d =>
    match stack with
    | [] => some d
    | (x, y) :: rest =>
      if inRange w h (x, y) then
        match d[idxOf w x y]? with
        | none => none
        | some px =>
          if isWhite px then
            ffLoopChk w h fuel
              ((x, y - 1) :: (x, y + 1) :: (x - 1, y) :: (x + 1, y) :: rest)
              (d.set (idxOf w x y) redPix)
          else ffLoopChk w h fuel rest d
      else ffLoopChk w h fuel rest d

/-- Bounds-checked mirror of `tryPush`: the neighbor reads of the mask and
of the visited array, and the visited write, are guarded. -/
def tryPushChk (w h : ℕ) (data : List Pix) (s : Option DfsState) (n : ℤ × ℤ) :
    Option DfsState :=
  match s with
  | none => none
  | some s =>
    if inRange w h n then
      match data[idxOf w n.1 n.2]?, s.visited[idxOf w n.1 n.2]? with
      | some px, some vb =>
        if px.r = 0 ∧ vb = false then
          some { s with visited := s.visited.set (idxOf w n.1 n.2) true, stack := n :: s.stack }
        else some s
      | _, _ => none
    else some s

/-- Bounds-checked mirror of `dfsLoop`. -/
def dfsLoopChk (w h : ℕ) (data : List Pix) : ℕ → DfsState → Option DfsState
  | 0, s => some s
  | fuel + 1, s =>
    match s.stack with
    | [] => some s
    | (cx, cy) :: rest =>
      let s1 : DfsState :=
        { stack := rest
          visited := s.visited
          pixels := (cx, cy) :: s.pixels
          minX := min s.minX cx
          minY := min s.minY cy
          maxX := max s.maxX cx
          maxY := max s.maxY cy }
      match (neighborsOf cx cy).foldl (tryPushChk w h data) (some s1) with
      | none => none
      | some s2 => dfsLoopChk w h data fuel s2

/-- Visited flag of coordinate `p` in a visited array of width-`w` rows. -/
def visAt (v : List Bool) (w : ℕ) (p : ℤ × ℤ) : Prop := v.getD (idxOf w p.1 p.2) false = true

/-- Number of white (fillable) cells, the flood-fill termination measure. -/
def whiteCount (d : List Pix) : ℕ := d.countP fun p => isWhite p

/-- Loop invariant of `ffLoop` relative to the starting mask `m` and seed
`s0`: cells are either untouched or painted red inside the reachable set,
white stack cells are reachable, and every still-white reachable cell can
be reached from some stack entry through still-white cells. -/
structure FfInv (w h : ℕ) (m : List Pix) (s0 : ℤ × ℤ) (stack : List (ℤ × ℤ))
    (d : List Pix) : Prop where
  len : d.length = m.length
  cells : ∀ p : ℤ × ℤ, inRange w h p →
    getPix d (idxOf w p.1 p.2) = getPix m (idxOf w p.1 p.2) ∨
      (Reach (goodW w h m) s0 p ∧ getPix d (idxOf w p.1 p.2) = redPix)
  stack_reach : ∀ q ∈ stack, inRange w h q →
    isWhite (getPix d (idxOf w q.1 q.2)) = true → Reach (goodW w h m) s0 q
  complete : ∀ p : ℤ × ℤ, Reach (goodW w h m) s0 p →
    isWhite (getPix d (idxOf w p.1 p.2)) = true →
    ∃ q ∈ stack, Reach (goodW w h d) q p

/-- Loop invariant of the labeling DFS, relative to the visited array `V0`
that was current when the component rooted at `p0` was discovered. -/
structure DfsInv (w h : ℕ) (data : List Pix) (V0 : List Bool) (p0 : ℤ × ℤ)
    (s : DfsState) : Prop where
  vlen : s.visited.length = w * h
  vis_iff : ∀ p : ℤ × ℤ, inRange w h p →
    (visAt s.visited w p ↔ (visAt V0 w p ∨ p ∈ s.stack ∨ p ∈ s.pixels))
  stack_good : ∀ p ∈ s.stack,
    goodB w h data p ∧ Reach (goodB w h data) p0 p ∧ ¬ visAt V0 w p
  pixels_good : ∀ p ∈ s.pixels,
    goodB w h data p ∧ Reach (goodB w h data) p0 p ∧ ¬ visAt V0 w p
  nodup : (s.stack ++ s.pixels).Nodup
  frontier : ∀ p ∈ s.pixels, ∀ q : ℤ × ℤ, adj p q → goodB w h data q → visAt s.visited w q
  start_in : p0 ∈ s.stack ∨ p0 ∈ s.pixels
  minx : s.minX = (s.pixels.map Prod.fst).foldr min (w : ℤ)
  miny : s.minY = (s.pixels.map Prod.snd).foldr min (h : ℤ)
  maxx : s.maxX = (s.pixels.map Prod.fst).foldr max (-1)
  maxy : s.maxY = (s.pixels.map Prod.snd).foldr max (-1)

/-- Mid-neighbor-loop invariant of the labeling DFS: like `DfsInv` but the
frontier condition of the pixel `c` being expanded is still pending for the
unprocessed neighbors `ns`. -/
structure DfsMid (w h : ℕ) (data : List Pix) (V0 : List Bool) (p0 c : ℤ × ℤ)
    (ns : List (ℤ × ℤ)) (s : DfsState) : Prop where
  vlen : s.visited.length = w * h
  vis_iff : ∀ p : ℤ × ℤ, inRange w h p →
    (visAt s.visited w p ↔ (visAt V0 w p ∨ p ∈ s.stack ∨ p ∈ s.pixels))
  stack_good : ∀ p ∈ s.stack,
    goodB w h data p ∧ Reach (goodB w h data) p0 p ∧ ¬ visAt V0 w p
  pixels_good : ∀ p ∈ s.pixels,
    goodB w h data p ∧ Reach (goodB w h data) p0 p ∧ ¬ visAt V0 w p
  nodup : (s.stack ++ s.pixels).Nodup
  frontier : ∀ p ∈ s.pixels, ∀ q : ℤ × ℤ, adj p q → goodB w h data q →
    (visAt s.visited w q ∨ (p = c ∧ q ∈ ns))
  start_in : p0 ∈ s.stack ∨ p0 ∈ s.pixels
  reach_c : Reach (goodB w h data) p0 c
  c_pix : c ∈ s.pixels

/-- Accumulated facts about one labeling scan state `(v, comps)`. -/
structure ScanInv (w h : ℕ) (data : List Pix) (acc : List Bool × List Component) : Prop where
  vlen : acc.1.length = w * h
  closed : ∀ p q : ℤ × ℤ, inRange w h p → visAt acc.1 w p → adj p q →
    goodB w h data q → visAt acc.1 w q
  comp_class : ∀ c ∈ acc.2, ∃ st, goodB w h data st ∧
    ∀ p : ℤ × ℤ, (p ∈ c.pixels ↔ Reach (goodB w h data) st p)
  comp_nodup : ∀ c ∈ acc.2, c.pixels.Nodup
  comp_bbox : ∀ c ∈ acc.2,
    (c.minX ∈ c.pixels.map Prod.fst ∧ ∀ p ∈ c.pixels, c.minX ≤ p.1) ∧
    (c.minY ∈ c.pixels.map Prod.snd ∧ ∀ p ∈ c.pixels, c.minY ≤ p.2) ∧
    (c.maxX ∈ c.pixels.map Prod.fst ∧ ∀ p ∈ c.pixels, p.1 ≤ c.maxX) ∧
    (c.maxY ∈ c.pixels.map Prod.snd ∧ ∀ p ∈ c.pixels, p.2 ≤ c.maxY)
  disj : acc.2.Pairwise fun c c2 => ∀ p : ℤ × ℤ, p ∈ c.pixels → p ∉ c2.pixels
  vis_union : ∀ p : ℤ × ℤ, inRange w h p →
    (visAt acc.1 w p ↔ ∃ c ∈ acc.2, p ∈ c.pixels)

/-- Pointwise outcome of one flood fill from seed `s0` on base mask `m`:
red where reachable, untouched where not. -/
def FillResultAt (w h : ℕ) (m : List Pix) (s0 : ℤ × ℤ) (r : List Pix) (p : ℤ × ℤ) : Prop :=
  (Reach (goodW w h m) s0 p → getPix r (idxOf w p.1 p.2) = redPix) ∧
  (¬ Reach (goodW w h m) s0 p → getPix r (idxOf w p.1 p.2) = getPix m (idxOf w p.1 p.2))

/-- Pointwise outcome of a sequence of flood fills from a seed list. -/
def FillSeqResultAt (w h : ℕ) (m : List Pix) (l : List (ℤ × ℤ)) (r : List Pix)
    (p : ℤ × ℤ) : Prop :=
  ((∃ s ∈ l, Reach (goodW w h m) s p) → getPix r (idxOf w p.1 p.2) = redPix) ∧
  (¬ (∃ s ∈ l, Reach (goodW w h m) s p) →
    getPix r (idxOf w p.1 p.2) = getPix m (idxOf w p.1 p.2))

/-! ### Basic buffer lemmas -/

theorem getPix_set_self (l : List Pix) (i : ℕ) (a : Pix) (h : i < l.length) :
    getPix (l.set i a) i = a := by
  unfold getPix
  rw [List.getD_eq_getElem?_getD, List.getElem?_set_self h, Option.getD_some]

theorem getPix_set_ne (l : List Pix) {i j : ℕ} (a : Pix) (h : i ≠ j) :
    getPix (l.set i a) j = getPix l j := by
  unfold getPix
  rw [List.getD_eq_getElem?_getD, List.getElem?_set_ne h, List.getD_eq_getElem?_getD]

theorem getPix_replicate (n i : ℕ) (a : Pix) (h : i < n) :
    getPix (List.replicate n a) i = a := by
  unfold getPix
  rw [List.getD_eq_getElem?_getD, List.getElem?_replicate_of_lt h, Option.getD_some]

theorem getPix_map (f : Pix → Pix) (l : List Pix) (i : ℕ) (h : i < l.length) :
    getPix (l.map f) i = f (getPix l i) := by
  unfold getPix
  rw [List.getD_eq_getElem?_getD, List.getElem?_map, List.getD_eq_getElem?_getD,
    List.getElem?_eq_getElem h]
  rfl

/-- In-range coordinates with the same flat index are equal. -/
theorem idxOf_inj {w h : ℕ} {p q : ℤ × ℤ} (hp : inRange w h p) (hq : inRange w h q)
    (hidx : idxOf w p.1 p.2 = idxOf w q.1 q.2) : p = q := by
  obtain ⟨hp1, hp2, hp3, hp4⟩ := hp
  obtain ⟨hq1, hq2, hq3, hq4⟩ := hq
  unfold idxOf at hidx
  have hpnn : 0 ≤ p.2 * (w : ℤ) + p.1 := by positivity
  have hqnn : 0 ≤ q.2 * (w : ℤ) + q.1 := by positivity
  have heq : p.2 * (w : ℤ) + p.1 = q.2 * (w : ℤ) + q.1 := by
    have := congrArg (fun n : ℕ => (n : ℤ)) hidx
    simpa [Int.toNat_of_nonneg hpnn, Int.toNat_of_nonneg hqnn] using this
  have hy : p.2 = q.2 := by
    rcases lt_trichotomy p.2 q.2 with hlt | he | hgt
    · exfalso
      have : p.2 * (w : ℤ) + p.1 < q.2 * (w : ℤ) + q.1 := by nlinarith
      omega
    · exact he
    · exfalso
      have : q.2 * (w : ℤ) + q.1 < p.2 * (w : ℤ) + p.1 := by nlinarith
      omega
  have hx : p.1 = q.1 := by rw [hy] at heq; omega
  exact Prod.ext hx hy

/-- The flat index of an in-range coordinate is inside the buffer. -/
theorem idxOf_lt {w h : ℕ} {p : ℤ × ℤ} (hp : inRange w h p) : idxOf w p.1 p.2 < w * h := by
  obtain ⟨h1, h2, h3, h4⟩ := hp
  unfold idxOf
  have hnn : 0 ≤ p.2 * (w : ℤ) + p.1 := by positivity
  rw [Int.toNat_lt hnn]
  push_cast
  nlinarith

/-- The in-range coordinate of a flat index. -/
theorem exists_coord_of_lt {w h : ℕ} {i : ℕ} (hi : i < w * h) :
    ∃ p : ℤ × ℤ, inRange w h p ∧ idxOf w p.1 p.2 = i := by
  have hw : 0 < w := by
    rcases Nat.eq_zero_or_pos w with h0 | h0
    · subst h0; simp at hi
    · exact h0
  refine ⟨((i % w : ℕ), (i / w : ℕ)), ?_, ?_⟩
  · unfold inRange
    dsimp only
    refine ⟨by positivity, ?_, by positivity, ?_⟩
    · exact_mod_cast Nat.mod_lt i hw
    · have : i / w < h := Nat.div_lt_iff_lt_mul hw |>.2 (by rw [Nat.mul_comm h w]; exact hi)
      exact_mod_cast this
  · unfold idxOf
    dsimp only
    have hdm := Nat.div_add_mod i w
    have hz : ((w : ℤ)) * ((i / w : ℕ) : ℤ) + ((i % w : ℕ) : ℤ) = (i : ℤ) := by
      exact_mod_cast hdm
    have hzz : ((i / w : ℕ) : ℤ) * (w : ℤ) + ((i % w : ℕ) : ℤ) = (i : ℤ) := by
      linear_combination hz
    rw [hzz]
    omega

/-! ### The threshold: the exact reading of the luminance formula -/

theorem luminanceSpec_lt_iff (r g b : ℕ) :
    luminanceSpec r g b < 100 ↔ 2126 * r + 7152 * g + 722 * b < 1000000 := by
  unfold luminanceSpec
  rw [show (0.2126 : ℚ) = 2126 / 10000 by norm_num,
    show (0.7152 : ℚ) = 7152 / 10000 by norm_num,
    show (0.0722 : ℚ) = 722 / 10000 by norm_num]
  rw [div_mul_eq_mul_div, div_mul_eq_mul_div, div_mul_eq_mul_div, div_add_div_same,
    div_add_div_same, div_lt_iff₀ (by norm_num)]
  constructor
  · intro hlt
    have : ((2126 * r + 7152 * g + 722 * b : ℕ) : ℚ) < 1000000 := by push_cast; linarith
    exact_mod_cast this
  · intro hlt
    have : ((2126 * r + 7152 * g + 722 * b : ℕ) : ℚ) < 1000000 := by exact_mod_cast hlt
    push_cast at this
    linarith

/-! ### Claims about the thresholder and determinism -/

/-- C6, corrected: `createMask` writes, at every pixel position, the STROKE
encoding `(0,0,0,255)` exactly when the binary64 (IEEE-754 double)
evaluation of `0.2126 R + 0.7152 G + 0.0722 B` — every literal, product and
left-associated sum rounded to the nearest double, as JavaScript computes
it — is `< 100`, and the interior-candidate encoding `(255,255,255,255)`
otherwise; it preserves the dimensions and is a pure deterministic function
of the input buffer.  The claim's exact-arithmetic reading of the threshold
test is refuted by the counterexample below: at four byte triples the exact
value is `100` while the double evaluation is below `100`. -/
theorem claim_C6 (img : ImageData) :
    (createMask img).width = img.width ∧
    (createMask img).height = img.height ∧
    (createMask img).data.length = img.data.length ∧
    (∀ i, i < img.data.length →
      ((lum64 (getPix img.data i).r (getPix img.data i).g (getPix img.data i).b < thr64 →
          getPix (createMask img).data i = blackPix) ∧
        (¬ lum64 (getPix img.data i).r (getPix img.data i).g (getPix img.data i).b < thr64 →
          getPix (createMask img).data i = whitePix))) ∧
    (∀ img2 : ImageData, img2 = img → createMask img2 = createMask img) := by
  refine ⟨rfl, rfl, List.length_map _ _, fun i hi => ?_, fun img2 h2 => by rw [h2]⟩
  unfold createMask
  rw [getPix_map _ _ _ hi]
  unfold maskPix
  constructor
  · intro hlt; rw [if_pos hlt]
  · intro hlt; rw [if_neg hlt]

theorem claim_C6_witness :
    0 < inputC7.data.length ∧
    (lum64 (getPix inputC7.data 0).r (getPix inputC7.data 0).g (getPix inputC7.data 0).b
        < thr64 →
      getPix (createMask inputC7).data 0 = blackPix) :=
  ⟨by decide, ((claim_C6 inputC7).2.2.2.1 0 (by decide)).1⟩

/-- C6, counterexample to the claim's exact-arithmetic reading of the
threshold test: the pixel `(4, 114, 244)` has
`0.2126 * 4 + 0.7152 * 114 + 0.0722 * 244 = 100` exactly — not `< 100` — yet
`createMask` classifies it STROKE, because the left-associated binary64
evaluation of the sum is below `100` (it is `99.99999999999999`).  The same
happens at `(69, 97, 221)`, `(151, 70, 247)` and `(165, 83, 77)`. -/
theorem claim_C6_cex :
    luminanceSpec 4 114 244 = 100 ∧
    ¬ luminanceSpec 4 114 244 < 100 ∧
    lum64 4 114 244 < thr64 ∧
    getPix (createMask ⟨1, 1, [⟨4, 114, 244, 255⟩]⟩).data 0 = blackPix := by
  have heq : luminanceSpec 4 114 244 = 100 := by
    unfold luminanceSpec
    norm_num
  refine ⟨heq, by rw [heq]; exact lt_irrefl _, by decide, by decide⟩

/-- C9: the core pipeline is deterministic — two runs on bit-identical
input buffers produce bit-identical output buffers. -/
theorem claim_C9 (img1 img2 : ImageData) (h : img1 = img2) :
    processCore img1 = processCore img2 := by rw [h]

theorem claim_C9_witness : processCore inputC7 = processCore inputC7 :=
  claim_C9 inputC7 inputC7 rfl

/-! ### Reachability lemmas -/

theorem adj_symm {p q : ℤ × ℤ} (h : adj p q) : adj q p := by
  unfold adj at h ⊢
  rcases h with ⟨h1, h2⟩ | ⟨h1, h2⟩ | ⟨h1, h2⟩ | ⟨h1, h2⟩
  · exact Or.inr (Or.inl ⟨by omega, by omega⟩)
  · exact Or.inl ⟨by omega, by omega⟩
  · exact Or.inr (Or.inr (Or.inr ⟨by omega, by omega⟩))
  · exact Or.inr (Or.inr (Or.inl ⟨by omega, by omega⟩))

theorem adj_iff_mem_neighbors {p q : ℤ × ℤ} : adj p q ↔ q ∈ neighborsOf p.1 p.2 := by
  obtain ⟨q1, q2⟩ := q
  unfold adj neighborsOf
  simp only [List.mem_cons, List.not_mem_nil, or_false, Prod.mk.injEq]

theorem reach_good_left {good : ℤ × ℤ → Prop} {a p : ℤ × ℤ} (h : Reach good a p) : good a := by
  induction h with
  | refl hq => exact hq
  | step h1 ha hg ih => exact ih

theorem reach_good_right {good : ℤ × ℤ → Prop} {a p : ℤ × ℤ} (h : Reach good a p) : good p := by
  cases h with
  | refl hq => exact hq
  | step h1 ha hg => exact hg

theorem reach_trans {good : ℤ × ℤ → Prop} {a b c : ℤ × ℤ} (h1 : Reach good a b)
    (h2 : Reach good b c) : Reach good a c := by
  induction h2 with
  | refl hq => exact h1
  | step h ha hg ih => exact Reach.step ih ha hg

theorem reach_symm {good : ℤ × ℤ → Prop} {a p : ℤ × ℤ} (h : Reach good a p) :
    Reach good p a := by
  induction h with
  | refl hq => exact Reach.refl _ hq
  | step h1 ha hg ih =>
    exact reach_trans (Reach.step (Reach.refl _ hg) (adj_symm ha) (reach_good_right h1)) ih

theorem reach_mono {g1 g2 : ℤ × ℤ → Prop} (hg : ∀ x, g1 x → g2 x) {a p : ℤ × ℤ}
    (h : Reach g1 a p) : Reach g2 a p := by
  induction h with
  | refl hq => exact Reach.refl _ (hg _ hq)
  | step h1 ha hgood ih => exact Reach.step ih ha (hg _ hgood)

/-- Path surgery: a path to `p ≠ c` either avoids `c` entirely or has a
final segment that leaves `c` through a neighbor and then avoids `c`. -/
theorem reach_avoid {good : ℤ × ℤ → Prop} {a p c : ℤ × ℤ} (h : Reach good a p) :
    p ≠ c →
    Reach (fun x => good x ∧ x ≠ c) a p ∨
      ∃ r, adj c r ∧ Reach (fun x => good x ∧ x ≠ c) r p := by
  induction h with
  | refl hq => intro hpc; exact Or.inl (Reach.refl _ ⟨hq, hpc⟩)
  | step h1 ha hg ih =>
    intro hpc
    rename_i qq rr
    by_cases hqc : qq = c
    · subst hqc
      exact Or.inr ⟨rr, ha, Reach.refl rr ⟨hg, hpc⟩⟩
    · rcases ih hqc with h2 | ⟨r0, hadj, h2⟩
      · exact Or.inl (Reach.step h2 ha ⟨hg, hpc⟩)
      · exact Or.inr ⟨r0, hadj, Reach.step h2 ha ⟨hg, hpc⟩⟩

/-! ### Counting lemmas for the termination measures -/

theorem countP_set_true_of_false (v : List Bool) :
    ∀ i : ℕ, i < v.length → v.getD i false = false →
      (v.set i true).count false + 1 = v.count false := by
  induction v with
  | nil => intro i hi; simp at hi
  | cons b t ih =>
    intro i hi hgd
    cases i with
    | zero =>
      simp only [List.getD_cons_zero] at hgd
      subst hgd
      simp [List.count_cons]
    | succ j =>
      simp only [List.getD_cons_succ] at hgd
      have := ih j (by simpa using hi) hgd
      simp only [List.set_cons_succ, List.count_cons]
      omega

theorem countP_set_red_of_white (d : List Pix) :
    ∀ i : ℕ, i < d.length → isWhite (getPix d i) = true →
      whiteCount (d.set i redPix) + 1 = whiteCount d := by
  induction d with
  | nil => intro i hi; simp at hi
  | cons b t ih =>
    intro i hi hw
    cases i with
    | zero =>
      unfold getPix at hw
      simp only [List.getD_cons_zero] at hw
      unfold whiteCount
      simp only [List.set_cons_zero, List.countP_cons, hw]
      have : isWhite redPix = false := by decide
      simp [this]
    | succ j =>
      have hw2 : isWhite (getPix t j) = true := by
        unfold getPix at hw ⊢
        simpa using hw
      have := ih j (by simpa using hi) hw2
      unfold whiteCount at this ⊢
      simp only [List.set_cons_succ, List.countP_cons]
      omega

theorem whiteCount_le_length (d : List Pix) : whiteCount d ≤ d.length :=
  List.countP_le_length _

/-! ### Small helpers about the pipeline stages -/

theorem idxOf_natCast (w x y : ℕ) : idxOf w (x : ℤ) (y : ℤ) = y * w + x := by
  unfold idxOf
  omega

theorem getPix_eq_getElem (d : List Pix) (i : ℕ) (h : i < d.length) : getPix d i = d[i] := by
  unfold getPix
  rw [List.getD_eq_getElem?_getD, List.getElem?_eq_getElem h, Option.getD_some]

theorem floodFill_width (m : ImageData) (sx sy : ℤ) : (floodFill m sx sy).width = m.width := by
  simp only [floodFill]
  split <;> rfl

theorem floodFill_height (m : ImageData) (sx sy : ℤ) : (floodFill m sx sy).height = m.height := by
  simp only [floodFill]
  split <;> rfl

theorem findObjectContours_width (m : ImageData) :
    (findObjectContours m).width = m.width := by
  unfold findObjectContours
  cases ccl m.width m.height m.data <;> rfl

theorem findObjectContours_height (m : ImageData) :
    (findObjectContours m).height = m.height := by
  unfold findObjectContours
  cases ccl m.width m.height m.data <;> rfl

/-- Two buffers of the same dimensions that agree on every in-range
coordinate are equal. -/
theorem imageData_ext (A B : ImageData) (hw : A.width = B.width) (hh : A.height = B.height)
    (hlen : A.data.length = B.data.length) (hwh : A.data.length = A.width * A.height)
    (hpt : ∀ p : ℤ × ℤ, inRange A.width A.height p →
      getPix A.data (idxOf A.width p.1 p.2) = getPix B.data (idxOf A.width p.1 p.2)) :
    A = B := by
  obtain ⟨w1, h1, d1⟩ := A
  obtain ⟨w2, h2, d2⟩ := B
  simp only at hw hh hlen hwh hpt
  subst hw hh
  have hd : d1 = d2 := by
    apply List.ext_getElem hlen
    intro i hi1 hi2
    obtain ⟨p, hp, hidx⟩ := exists_coord_of_lt (show i < w1 * h1 from hwh ▸ hi1)
    have := hpt p hp
    rw [hidx, getPix_eq_getElem _ _ hi1, getPix_eq_getElem _ _ hi2] at this
    exact this
  rw [hd]

/-! ### The flood-fill loop -/

theorem goodW_set_red {w h : ℕ} {d : List Pix} {c : ℤ × ℤ} (hin : inRange w h c)
    (hd : d.length = w * h) (x : ℤ × ℤ) :
    goodW w h (d.set (idxOf w c.1 c.2) redPix) x ↔ (goodW w h d x ∧ x ≠ c) := by
  by_cases hx : inRange w h x
  · by_cases hxc : x = c
    · subst hxc
      have hlt : idxOf w x.1 x.2 < d.length := by rw [hd]; exact idxOf_lt hx
      unfold goodW
      rw [getPix_set_self _ _ _ hlt]
      have : isWhite redPix = false := by decide
      simp [this]
    · have hne : idxOf w c.1 c.2 ≠ idxOf w x.1 x.2 := fun he =>
        hxc (idxOf_inj hx hin he.symm)
      unfold goodW
      rw [getPix_set_ne _ _ hne]
      simp [hxc]
  · unfold goodW
    simp [hx]

theorem ffInv_empty_final {w h : ℕ} {m : List Pix} {s0 : ℤ × ℤ} {d : List Pix}
    (hinv : FfInv w h m s0 [] d) :
    ∀ p : ℤ × ℤ, inRange w h p → FillResultAt w h m s0 d p := by
  intro p hp
  constructor
  · intro hr
    rcases hinv.cells p hp with hc | ⟨_, hc⟩
    · exfalso
      have hw := (reach_good_right hr).2
      have hwd : isWhite (getPix d (idxOf w p.1 p.2)) = true := by rw [hc]; exact hw
      obtain ⟨q, hq, _⟩ := hinv.complete p hr hwd
      exact absurd hq (List.not_mem_nil q)
    · exact hc
  · intro hr
    rcases hinv.cells p hp with hc | ⟨hre, _⟩
    · exact hc
    · exact absurd hre hr

theorem ffLoop_spec (w h : ℕ) (m : List Pix) (s0 : ℤ × ℤ) (hm : m.length = w * h) :
    ∀ (fuel : ℕ) (stack : List (ℤ × ℤ)) (d : List Pix),
      FfInv w h m s0 stack d →
      stack.length + 4 * whiteCount d ≤ fuel →
      (ffLoop w h fuel stack d).length = m.length ∧
      ∀ p : ℤ × ℤ, inRange w h p →
        FillResultAt w h m s0 (ffLoop w h fuel stack d) p := by
  intro fuel
  induction fuel with
  | zero =>
    intro stack d hinv hfuel
    have hstack : stack = [] := by
      cases stack with
      | nil => rfl
      | cons a t => simp at hfuel
    subst hstack
    exact ⟨hinv.len, ffInv_empty_final hinv⟩
  | succ n ih =>
    intro stack d hinv hfuel
    cases stack with
    | nil =>
      have : ffLoop w h (n + 1) [] d = d := by simp [ffLoop]
      rw [this]
      exact ⟨hinv.len, ffInv_empty_final hinv⟩
    | cons c rest =>
      obtain ⟨x, y⟩ := c
      have hdlen : d.length = w * h := hinv.len.trans hm
      by_cases hin : inRange w h (x, y)
      · by_cases hwhite : isWhite (getPix d (idxOf w x y)) = true
        · -- paint (x, y) red and push its four neighbors
          have hred : ffLoop w h (n + 1) ((x, y) :: rest) d =
              ffLoop w h n ((x, y - 1) :: (x, y + 1) :: (x - 1, y) :: (x + 1, y) :: rest)
                (d.set (idxOf w x y) redPix) := by
            simp only [ffLoop]
            rw [if_pos hin, if_pos hwhite]
          rw [hred]
          have hilt : idxOf w x y < d.length := by rw [hdlen]; exact idxOf_lt hin
          have hreach_c : Reach (goodW w h m) s0 (x, y) :=
            hinv.stack_reach (x, y) (List.mem_cons_self _ _) hin hwhite
          set d2 := d.set (idxOf w x y) redPix with hd2
          set stack2 : List (ℤ × ℤ) :=
            (x, y - 1) :: (x, y + 1) :: (x - 1, y) :: (x + 1, y) :: rest with hstack2
          have hgood2 : ∀ z, goodW w h d2 z ↔ (goodW w h d z ∧ z ≠ (x, y)) :=
            goodW_set_red hin hdlen
          have hcell2_ne : ∀ p : ℤ × ℤ, inRange w h p → p ≠ (x, y) →
              getPix d2 (idxOf w p.1 p.2) = getPix d (idxOf w p.1 p.2) := by
            intro p hp hpne
            exact getPix_set_ne _ _ fun he => hpne (idxOf_inj hp hin he.symm)
          have hcell2_c : getPix d2 (idxOf w x y) = redPix := getPix_set_self _ _ _ hilt
          have hinv2 : FfInv w h m s0 stack2 d2 := by
            refine ⟨?_, ?_, ?_, ?_⟩
            · rw [hd2, List.length_set]; exact hinv.len
            · intro p hp
              by_cases hpc : p = (x, y)
              · subst hpc
                exact Or.inr ⟨hreach_c, hcell2_c⟩
              · rw [hcell2_ne p hp hpc]
                exact hinv.cells p hp
            · intro q hq hqin hqw
              have hqne : q ≠ (x, y) := by
                intro he
                have h2 : idxOf w q.1 q.2 = idxOf w x y := by rw [he]
                rw [h2, hcell2_c] at hqw
                exact absurd hqw (by decide)
              have hqwd : isWhite (getPix d (idxOf w q.1 q.2)) = true := by
                rw [← hcell2_ne q hqin hqne]; exact hqw
              have hgoodmq : goodW w h m q := by
                refine ⟨hqin, ?_⟩
                rcases hinv.cells q hqin with hc | ⟨_, hc⟩
                · rw [← hc]; exact hqwd
                · rw [hc] at hqwd; exact absurd hqwd (by decide)
              rw [hstack2] at hq
              rcases List.mem_cons.mp hq with rfl | hq
              · exact Reach.step hreach_c (Or.inr (Or.inr (Or.inr ⟨rfl, rfl⟩))) hgoodmq
              rcases List.mem_cons.mp hq with rfl | hq
              · exact Reach.step hreach_c (Or.inr (Or.inr (Or.inl ⟨rfl, rfl⟩))) hgoodmq
              rcases List.mem_cons.mp hq with rfl | hq
              · exact Reach.step hreach_c (Or.inr (Or.inl ⟨rfl, rfl⟩)) hgoodmq
              rcases List.mem_cons.mp hq with rfl | hq
              · exact Reach.step hreach_c (Or.inl ⟨rfl, rfl⟩) hgoodmq
              · exact hinv.stack_reach q (List.mem_cons_of_mem _ hq) hqin hqwd
            · intro p hrp hpw
              have hpc : p ≠ (x, y) := by
                intro he
                have h2 : idxOf w p.1 p.2 = idxOf w x y := by rw [he]
                rw [h2, hcell2_c] at hpw
                exact absurd hpw (by decide)
              have hpwd : isWhite (getPix d (idxOf w p.1 p.2)) = true := by
                rw [← hcell2_ne p (reach_good_right hrp).1 hpc]; exact hpw
              obtain ⟨q, hq, hreachd⟩ := hinv.complete p hrp hpwd
              rcases reach_avoid hreachd hpc with havoid | ⟨r, hadj, hr2⟩
              · have hqok : q ∈ rest := by
                  rcases List.mem_cons.mp hq with rfl | hq
                  · exact absurd (reach_good_left havoid).2 (by simp)
                  · exact hq
                refine ⟨q, ?_, reach_mono (fun z hz => (hgood2 z).2 hz) havoid⟩
                rw [hstack2]
                exact List.mem_cons_of_mem _ (List.mem_cons_of_mem _ (List.mem_cons_of_mem _
                  (List.mem_cons_of_mem _ hqok)))
              · have hrmem : r ∈ stack2 := by
                  have := adj_iff_mem_neighbors.1 hadj
                  unfold neighborsOf at this
                  simp only [List.mem_cons, List.not_mem_nil, or_false] at this
                  rw [hstack2]
                  rcases this with rfl | rfl | rfl | rfl
                  · simp
                  · simp
                  · simp
                  · simp
                exact ⟨r, hrmem, reach_mono (fun z hz => (hgood2 z).2 hz) hr2⟩
          have hmeas : stack2.length + 4 * whiteCount d2 ≤ n := by
            have hcount := countP_set_red_of_white d (idxOf w x y) hilt hwhite
            rw [← hd2] at hcount
            rw [hstack2]
            simp only [List.length_cons] at hfuel ⊢
            omega
          exact ih stack2 d2 hinv2 hmeas
        · -- popped cell is not white: drop it
          have hstep : ffLoop w h (n + 1) ((x, y) :: rest) d = ffLoop w h n rest d := by
            simp only [ffLoop]
            rw [if_pos hin, if_neg hwhite]
          rw [hstep]
          have hinv2 : FfInv w h m s0 rest d := by
            refine ⟨hinv.len, hinv.cells, ?_, ?_⟩
            · intro q hq hqin hqw
              exact hinv.stack_reach q (List.mem_cons_of_mem _ hq) hqin hqw
            · intro p hrp hpw
              obtain ⟨q, hq, hreachd⟩ := hinv.complete p hrp hpw
              rcases List.mem_cons.mp hq with rfl | hq
              · exact absurd (reach_good_left hreachd).2 hwhite
              · exact ⟨q, hq, hreachd⟩
          exact ih rest d hinv2 (by simp only [List.length_cons] at hfuel; omega)
      · -- popped cell is out of range: drop it
        have hstep : ffLoop w h (n + 1) ((x, y) :: rest) d = ffLoop w h n rest d := by
          simp only [ffLoop]
          rw [if_neg hin]
        rw [hstep]
        have hinv2 : FfInv w h m s0 rest d := by
          refine ⟨hinv.len, hinv.cells, ?_, ?_⟩
          · intro q hq hqin hqw
            exact hinv.stack_reach q (List.mem_cons_of_mem _ hq) hqin hqw
          · intro p hrp hpw
            obtain ⟨q, hq, hreachd⟩ := hinv.complete p hrp hpw
            rcases List.mem_cons.mp hq with rfl | hq
            · exact absurd (reach_good_left hreachd).1 hin
            · exact ⟨q, hq, hreachd⟩
        exact ih rest d hinv2 (by simp only [List.length_cons] at hfuel; omega)

/-- Pointwise characterization of one `floodFill` call: red exactly on the
set reachable from the seed through white cells, untouched elsewhere. -/
theorem floodFill_spec (m : ImageData) (sx sy : ℤ)
    (hm : m.data.length = m.width * m.height) :
    (floodFill m sx sy).data.length = m.data.length ∧
    ∀ p : ℤ × ℤ, inRange m.width m.height p →
      FillResultAt m.width m.height m.data (sx, sy) (floodFill m sx sy).data p := by
  by_cases hguard : (getPix m.data (idxOf m.width sx sy)).r = 0 ∨
      ((getPix m.data (idxOf m.width sx sy)).r = 255 ∧
        (getPix m.data (idxOf m.width sx sy)).g = 0)
  · have hff : floodFill m sx sy = m := by
      simp only [floodFill]
      rw [if_pos hguard]
    rw [hff]
    refine ⟨rfl, fun p hp => ?_⟩
    have hnr : ¬ Reach (goodW m.width m.height m.data) (sx, sy) p := by
      intro hre
      have hgood := reach_good_left hre
      have hw := hgood.2
      unfold isWhite at hw
      simp only [Bool.and_eq_true, beq_iff_eq] at hw
      rcases hguard with hg | ⟨hg, hg2⟩
      · rw [hw.1.1] at hg; exact absurd hg (by norm_num)
      · rw [hw.1.2] at hg2; exact absurd hg2 (by norm_num)
    exact ⟨fun hre => absurd hre hnr, fun _ => rfl⟩
  · have hff : (floodFill m sx sy).data =
        ffLoop m.width m.height (ffFuel m) [(sx, sy)] m.data := by
      simp only [floodFill]
      rw [if_neg hguard]
    have hinv : FfInv m.width m.height m.data (sx, sy) [(sx, sy)] m.data := by
      refine ⟨rfl, fun p hp => Or.inl rfl, ?_, ?_⟩
      · intro q hq hqin hqw
        rcases List.mem_cons.mp hq with rfl | hq
        · exact Reach.refl _ ⟨hqin, hqw⟩
        · exact absurd hq (List.not_mem_nil q)
      · intro p hrp hpw
        exact ⟨(sx, sy), List.mem_cons_self _ _, hrp⟩
    have hmeas : ([(sx, sy)] : List (ℤ × ℤ)).length + 4 * whiteCount m.data ≤ ffFuel m := by
      have := whiteCount_le_length m.data
      unfold ffFuel
      simp only [List.length_cons, List.length_nil]
      omega
    have := ffLoop_spec m.width m.height m.data (sx, sy) hm (ffFuel m) [(sx, sy)] m.data
      hinv hmeas
    rw [hff]
    exact this

theorem floodFill_noop {m : ImageData} {sx sy : ℤ}
    (hguard : (getPix m.data (idxOf m.width sx sy)).r = 0 ∨
      ((getPix m.data (idxOf m.width sx sy)).r = 255 ∧
        (getPix m.data (idxOf m.width sx sy)).g = 0)) :
    floodFill m sx sy = m := by
  simp only [floodFill]
  rw [if_pos hguard]

/-- Painting one reachable set does not change which cells the remaining
seeds can reach, except inside that set itself. -/
theorem reach_or_reach_seed {g g2 : ℤ × ℤ → Prop} {sd : ℤ × ℤ}
    (hg : ∀ z, g2 z ↔ (g z ∧ ¬ Reach g sd z)) {u p : ℤ × ℤ} (h : Reach g u p) :
    Reach g2 u p ∨ Reach g sd p := by
  induction h with
  | refl hq =>
    by_cases hr : Reach g sd u
    · exact Or.inr hr
    · exact Or.inl (Reach.refl u ((hg u).2 ⟨hq, hr⟩))
  | step h1 ha hgd ih =>
    rename_i qq rr
    by_cases hr : Reach g sd rr
    · exact Or.inr hr
    · rcases ih with h2 | h2
      · exact Or.inl (Reach.step h2 ha ((hg rr).2 ⟨hgd, hr⟩))
      · exact absurd (Reach.step h2 ha hgd) hr

theorem fillSeq_width (l : List (ℤ × ℤ)) : ∀ m : ImageData, (fillSeq m l).width = m.width := by
  induction l with
  | nil => intro m; rfl
  | cons s t ih =>
    intro m
    have : fillSeq m (s :: t) = fillSeq (floodFill m s.1 s.2) t := rfl
    rw [this, ih, floodFill_width]

theorem fillSeq_height (l : List (ℤ × ℤ)) : ∀ m : ImageData, (fillSeq m l).height = m.height := by
  induction l with
  | nil => intro m; rfl
  | cons s t ih =>
    intro m
    have : fillSeq m (s :: t) = fillSeq (floodFill m s.1 s.2) t := rfl
    rw [this, ih, floodFill_height]

/-- Pointwise characterization of a whole seed sequence: a cell ends red
exactly when some seed of the list reaches it through cells white in the
original mask; every other cell is untouched. -/
theorem fillSeq_spec (l : List (ℤ × ℤ)) :
    ∀ m : ImageData, m.data.length = m.width * m.height →
      (fillSeq m l).data.length = m.data.length ∧
      ∀ p : ℤ × ℤ, inRange m.width m.height p →
        FillSeqResultAt m.width m.height m.data l (fillSeq m l).data p := by
  induction l with
  | nil =>
    intro m hm
    refine ⟨rfl, fun p hp => ⟨?_, fun _ => rfl⟩⟩
    rintro ⟨sd, hsd, -⟩
    exact absurd hsd (List.not_mem_nil sd)
  | cons sd t ih =>
    intro m hm
    have hstep : fillSeq m (sd :: t) = fillSeq (floodFill m sd.1 sd.2) t := rfl
    obtain ⟨hlen1, hsingle⟩ := floodFill_spec m sd.1 sd.2 hm
    have hm2 : (floodFill m sd.1 sd.2).data.length =
        (floodFill m sd.1 sd.2).width * (floodFill m sd.1 sd.2).height := by
      rw [floodFill_width, floodFill_height, hlen1, hm]
    obtain ⟨hlen2, hpt⟩ := ih (floodFill m sd.1 sd.2) hm2
    rw [floodFill_width, floodFill_height] at hpt
    have hseta : (sd.1, sd.2) = sd := rfl
    rw [hseta] at hsingle
    have hgood2 : ∀ z, goodW m.width m.height (floodFill m sd.1 sd.2).data z ↔
        (goodW m.width m.height m.data z ∧ ¬ Reach (goodW m.width m.height m.data) sd z) := by
      intro z
      by_cases hz : inRange m.width m.height z
      · obtain ⟨hz1, hz2⟩ := hsingle z hz
        constructor
        · intro hgz
          by_cases hrz : Reach (goodW m.width m.height m.data) sd z
          · exfalso
            have := hgz.2
            rw [hz1 hrz] at this
            exact absurd this (by decide)
          · refine ⟨⟨hz, ?_⟩, hrz⟩
            rw [← hz2 hrz]
            exact hgz.2
        · rintro ⟨⟨-, hwz⟩, hrz⟩
          refine ⟨hz, ?_⟩
          rw [hz2 hrz]
          exact hwz
      · constructor
        · intro hgz; exact absurd hgz.1 hz
        · rintro ⟨⟨hgz, -⟩, -⟩; exact absurd hgz hz
    rw [hstep]
    refine ⟨hlen2.trans hlen1, fun p hp => ?_⟩
    obtain ⟨hred2, hkeep2⟩ := hpt p hp
    constructor
    · rintro ⟨u, hu, hre⟩
      by_cases hex2 : ∃ v ∈ t, Reach (goodW m.width m.height (floodFill m sd.1 sd.2).data) v p
      · exact hred2 hex2
      · have hrp : Reach (goodW m.width m.height m.data) sd p := by
          rcases List.mem_cons.mp hu with rfl | hu2
          · exact hre
          · rcases reach_or_reach_seed hgood2 hre with h2 | h2
            · exact absurd ⟨u, hu2, h2⟩ hex2
            · exact h2
        rw [hkeep2 hex2]
        exact (hsingle p hp).1 hrp
    · intro hex
      have hnot_sd : ¬ Reach (goodW m.width m.height m.data) sd p := fun hre =>
        hex ⟨sd, List.mem_cons_self _ _, hre⟩
      have hex2 : ¬ ∃ v ∈ t,
          Reach (goodW m.width m.height (floodFill m sd.1 sd.2).data) v p := by
        rintro ⟨v, hv, hre⟩
        exact hex ⟨v, List.mem_cons_of_mem _ hv,
          reach_mono (fun z hz => ((hgood2 z).1 hz).1) hre⟩
      rw [hkeep2 hex2]
      exact (hsingle p hp).2 hnot_sd

/-- C4: after the four corner-seeded flood fills on an object mask
(each cell a line cell or an interior cell), a cell is EXTERIOR (red) iff
it was INTERIOR (white) before filling and some corner reaches it through a
4-connected path of cells that were all white before filling; unreachable
white cells and all line cells are unchanged. -/
theorem claim_C4 (m : ImageData) (hm : m.data.length = m.width * m.height)
    (hobj : ∀ i, i < m.data.length →
      getPix m.data i = blackPix ∨ getPix m.data i = whitePix) :
    ∀ p : ℤ × ℤ, inRange m.width m.height p →
      (getPix (fillSeq m (cornerSeeds m.width m.height)).data (idxOf m.width p.1 p.2) = redPix
          ↔ (getPix m.data (idxOf m.width p.1 p.2) = whitePix ∧
             ∃ c ∈ cornerSeeds m.width m.height,
               Reach (goodW m.width m.height m.data) c p)) ∧
      ((getPix m.data (idxOf m.width p.1 p.2) = whitePix ∧
          ¬ ∃ c ∈ cornerSeeds m.width m.height,
              Reach (goodW m.width m.height m.data) c p) →
        getPix (fillSeq m (cornerSeeds m.width m.height)).data (idxOf m.width p.1 p.2) =
          getPix m.data (idxOf m.width p.1 p.2)) ∧
      (getPix m.data (idxOf m.width p.1 p.2) = blackPix →
        getPix (fillSeq m (cornerSeeds m.width m.height)).data (idxOf m.width p.1 p.2) =
          blackPix) := by
  intro p hp
  obtain ⟨hlen, hpt⟩ := fillSeq_spec (cornerSeeds m.width m.height) m hm
  obtain ⟨hred, hkeep⟩ := hpt p hp
  have hcell := hobj (idxOf m.width p.1 p.2) (by rw [hm]; exact idxOf_lt hp)
  refine ⟨⟨?_, ?_⟩, ?_, ?_⟩
  · intro hfr
    by_cases hex : ∃ c ∈ cornerSeeds m.width m.height,
        Reach (goodW m.width m.height m.data) c p
    · obtain ⟨c, hc, hre⟩ := hex
      have hw := (reach_good_right hre).2
      rcases hcell with hb | hw2
      · rw [hb] at hw; exact absurd hw (by decide)
      · exact ⟨hw2, c, hc, hre⟩
    · rw [hkeep hex] at hfr
      rcases hcell with hb | hw2
      · rw [hb] at hfr; exact absurd hfr (by decide)
      · rw [hw2] at hfr; exact absurd hfr (by decide)
  · rintro ⟨-, hex⟩
    exact hred hex
  · rintro ⟨-, hex⟩
    exact hkeep hex
  · intro hb
    have hex : ¬ ∃ c ∈ cornerSeeds m.width m.height,
        Reach (goodW m.width m.height m.data) c p := by
      rintro ⟨c, hc, hre⟩
      have hw := (reach_good_right hre).2
      rw [hb] at hw
      exact absurd hw (by decide)
    rw [hkeep hex]
    exact hb

theorem claim_C4_witness :
    inputC7.data.length = inputC7.width * inputC7.height ∧
    (∀ i, i < inputC7.data.length →
      getPix inputC7.data i = blackPix ∨ getPix inputC7.data i = whitePix) ∧
    inRange inputC7.width inputC7.height (0, 0) ∧
    ((getPix inputC7.data (idxOf inputC7.width 0 0) = whitePix ∧
        ¬ ∃ c ∈ cornerSeeds inputC7.width inputC7.height,
            Reach (goodW inputC7.width inputC7.height inputC7.data) c (0, 0)) →
      getPix (fillSeq inputC7 (cornerSeeds inputC7.width inputC7.height)).data
          (idxOf inputC7.width 0 0) =
        getPix inputC7.data (idxOf inputC7.width 0 0)) :=
  ⟨by decide, by decide, by decide,
    (claim_C4 inputC7 (by decide) (by decide) (0, 0) (by decide)).2.1⟩

/-- C5: flood fill is idempotent, the four corner seed calls compose in any
order, and a seed call on a line or already-red cell is a no-op. -/
theorem claim_C5 (m : ImageData) (hm : m.data.length = m.width * m.height) :
    (∀ sx sy : ℤ, floodFill (floodFill m sx sy) sx sy = floodFill m sx sy) ∧
    (∀ l : List (ℤ × ℤ), l.Perm (cornerSeeds m.width m.height) →
      fillSeq m l = fillSeq m (cornerSeeds m.width m.height)) ∧
    (∀ sx sy : ℤ,
      (getPix m.data (idxOf m.width sx sy) = blackPix ∨
        getPix m.data (idxOf m.width sx sy) = redPix) →
      floodFill m sx sy = m) := by
  have hnoop_of : ∀ sx sy : ℤ,
      (getPix m.data (idxOf m.width sx sy) = blackPix ∨
        getPix m.data (idxOf m.width sx sy) = redPix) → floodFill m sx sy = m := by
    intro sx sy hcell
    apply floodFill_noop
    rcases hcell with hc | hc
    · left; rw [hc]; rfl
    · right; rw [hc]
      exact ⟨rfl, rfl⟩
  refine ⟨?_, ?_, hnoop_of⟩
  · intro sx sy
    by_cases hguard : (getPix m.data (idxOf m.width sx sy)).r = 0 ∨
        ((getPix m.data (idxOf m.width sx sy)).r = 255 ∧
          (getPix m.data (idxOf m.width sx sy)).g = 0)
    · rw [floodFill_noop hguard, floodFill_noop hguard]
    · obtain ⟨hlen1, hsingle⟩ := floodFill_spec m sx sy hm
      by_cases hseed : goodW m.width m.height m.data (sx, sy)
      · -- the seed cell got painted red, so the second call is a no-op
        have hred : getPix (floodFill m sx sy).data (idxOf m.width sx sy) = redPix := by
          have := (hsingle (sx, sy) hseed.1).1 (Reach.refl _ hseed)
          exact this
        apply floodFill_noop
        rw [floodFill_width, hred]
        right
        exact ⟨rfl, rfl⟩
      · -- nothing was reachable: the first call already changed nothing
        have hnone : ∀ p : ℤ × ℤ, ¬ Reach (goodW m.width m.height m.data) (sx, sy) p :=
          fun p hre => hseed (reach_good_left hre)
        have heq : floodFill m sx sy = m := by
          apply imageData_ext _ _ (floodFill_width m sx sy) (floodFill_height m sx sy) hlen1
            (by rw [hlen1, floodFill_width, floodFill_height, hm])
          intro p hp
          rw [floodFill_width, floodFill_height] at hp
          rw [floodFill_width]
          exact (hsingle p hp).2 (hnone p)
        rw [heq]
        exact heq
  · intro l hperm
    have hlenl := fillSeq_spec l m hm
    have hlenc := fillSeq_spec (cornerSeeds m.width m.height) m hm
    apply imageData_ext _ _ ((fillSeq_width _ _).trans (fillSeq_width _ _).symm)
      ((fillSeq_height _ _).trans (fillSeq_height _ _).symm)
      (hlenl.1.trans hlenc.1.symm)
      (by rw [hlenl.1, fillSeq_width, fillSeq_height, hm])
    intro p hp
    rw [fillSeq_width, fillSeq_height] at hp
    rw [fillSeq_width]
    obtain ⟨hred1, hkeep1⟩ := hlenl.2 p hp
    obtain ⟨hred2, hkeep2⟩ := hlenc.2 p hp
    by_cases hex : ∃ sd ∈ cornerSeeds m.width m.height,
        Reach (goodW m.width m.height m.data) sd p
    · have hexl : ∃ sd ∈ l, Reach (goodW m.width m.height m.data) sd p := by
        obtain ⟨sd, hsd, hre⟩ := hex
        exact ⟨sd, hperm.mem_iff.mpr hsd, hre⟩
      rw [hred1 hexl, hred2 hex]
    · have hexl : ¬ ∃ sd ∈ l, Reach (goodW m.width m.height m.data) sd p := by
        rintro ⟨sd, hsd, hre⟩
        exact hex ⟨sd, hperm.mem_iff.mp hsd, hre⟩
      rw [hkeep1 hexl, hkeep2 hex]

theorem claim_C5_witness :
    inputC7.data.length = inputC7.width * inputC7.height ∧
    floodFill (floodFill inputC7 0 0) 0 0 = floodFill inputC7 0 0 :=
  ⟨by decide, (claim_C5 inputC7 (by decide)).1 0 0⟩

/-! ### The zero-component path and the all-white grid -/

theorem mem_coordList {w h x y : ℕ} : (x, y) ∈ coordList w h ↔ x < w ∧ y < h := by
  unfold coordList
  simp only [List.mem_flatMap, List.mem_map, List.mem_range, Prod.mk.injEq]
  constructor
  · rintro ⟨b, hb, a, ha, rfl, rfl⟩
    exact ⟨ha, hb⟩
  · rintro ⟨hx, hy⟩
    exact ⟨y, hy, x, hx, rfl, rfl⟩

theorem coordList_lt {w h : ℕ} : ∀ c ∈ coordList w h, c.1 < w ∧ c.2 < h := by
  intro c hc
  obtain ⟨cx, cy⟩ := c
  exact mem_coordList.mp hc

theorem coord_idx_lt {w h : ℕ} {c : ℕ × ℕ} (h1 : c.1 < w) (h2 : c.2 < h) :
    c.2 * w + c.1 < w * h := by
  have hs : c.2 * w + c.1 < (c.2 + 1) * w := by
    rw [Nat.succ_mul]
    omega
  have hle : (c.2 + 1) * w ≤ h * w := Nat.mul_le_mul_right w h2
  calc c.2 * w + c.1 < (c.2 + 1) * w := hs
    _ ≤ h * w := hle
    _ = w * h := Nat.mul_comm h w

theorem ccl_no_black (w h : ℕ) (data : List Pix)
    (hnb : ∀ i, i < w * h → (getPix data i).r ≠ 0) : ccl w h data = [] := by
  unfold ccl
  have hfold : ∀ (l : List (ℕ × ℕ)) (acc : List Bool × List Component),
      (∀ c ∈ l, c.1 < w ∧ c.2 < h) → l.foldl (scanStep w h data) acc = acc := by
    intro l
    induction l with
    | nil => intro acc _; rfl
    | cons c t ih =>
      intro acc hc
      obtain ⟨h1, h2⟩ := hc c (List.mem_cons_self _ _)
      have hstep : scanStep w h data acc c = acc := by
        unfold scanStep
        rw [if_neg]
        rintro ⟨hr, -⟩
        exact hnb _ (coord_idx_lt h1 h2) hr
      rw [List.foldl_cons, hstep]
      exact ih acc fun c2 hc2 => hc c2 (List.mem_cons_of_mem _ hc2)
  rw [hfold _ _ coordList_lt]

theorem findObjectContours_no_black (m : ImageData)
    (hnb : ∀ i, i < m.width * m.height → (getPix m.data i).r ≠ 0) :
    findObjectContours m =
      ⟨m.width, m.height, List.replicate (m.width * m.height) whitePix⟩ := by
  unfold findObjectContours
  rw [ccl_no_black _ _ _ hnb]

/-- In an everywhere-good grid, the corner `(0, 0)` reaches every cell:
walk right along row 0, then down the column. -/
theorem reach_of_all_good {w h : ℕ} {good : ℤ × ℤ → Prop}
    (hall : ∀ q : ℤ × ℤ, inRange w h q → good q) :
    ∀ p : ℤ × ℤ, inRange w h p → Reach good (0, 0) p := by
  intro p hp
  obtain ⟨hp1, hp2, hp3, hp4⟩ := hp
  have hrow : ∀ n : ℕ, (n : ℤ) ≤ p.1 → Reach good (0, 0) ((n : ℤ), 0) := by
    intro n
    induction n with
    | zero =>
      intro _
      exact Reach.refl _ (hall (0, 0) ⟨le_refl 0, by omega, le_refl 0, by omega⟩)
    | succ k ih =>
      intro hk
      have hk2 : (k : ℤ) ≤ p.1 := by push_cast at hk; omega
      refine Reach.step (ih hk2) ?_ (hall _ ?_)
      · left
        constructor
        · push_cast; ring
        · rfl
      · refine ⟨by positivity, ?_, le_refl 0, by omega⟩
        push_cast at hk ⊢
        omega
  have hx0 : Reach good (0, 0) (p.1, 0) := by
    have := hrow p.1.toNat (by omega)
    rw [Int.toNat_of_nonneg hp1] at this
    exact this
  have hcol : ∀ n : ℕ, (n : ℤ) ≤ p.2 → Reach good (p.1, 0) (p.1, (n : ℤ)) := by
    intro n
    induction n with
    | zero =>
      intro _
      exact Reach.refl _ (hall (p.1, 0) ⟨hp1, hp2, le_refl 0, by omega⟩)
    | succ k ih =>
      intro hk
      have hk2 : (k : ℤ) ≤ p.2 := by push_cast at hk; omega
      refine Reach.step (ih hk2) ?_ (hall _ ?_)
      · right; right; left
        constructor
        · rfl
        · push_cast; ring
      · refine ⟨hp1, hp2, by positivity, ?_⟩
        push_cast at hk ⊢
        omega
  have hy : Reach good (p.1, 0) (p.1, p.2) := by
    have := hcol p.2.toNat (by omega)
    rw [Int.toNat_of_nonneg hp3] at this
    exact this
  exact reach_trans hx0 hy

theorem createMask_width (img : ImageData) : (createMask img).width = img.width := rfl

theorem createMask_height (img : ImageData) : (createMask img).height = img.height := rfl

theorem data_eq_replicate_of_pointwise (A : ImageData) (a : Pix)
    (hwh : A.data.length = A.width * A.height)
    (hpt : ∀ p : ℤ × ℤ, inRange A.width A.height p →
      getPix A.data (idxOf A.width p.1 p.2) = a) :
    A.data = List.replicate (A.width * A.height) a := by
  rw [List.eq_replicate_iff]
  refine ⟨hwh, fun b hb => ?_⟩
  obtain ⟨i, hi, rfl⟩ := List.mem_iff_getElem.mp hb
  obtain ⟨p, hp, hidx⟩ := exists_coord_of_lt (show i < A.width * A.height from hwh ▸ hi)
  have := hpt p hp
  rw [hidx, getPix_eq_getElem _ _ hi] at this
  exact this

/-- `processCore` is the compositing map applied to the corner fill
sequence of the object mask. -/
theorem processCore_decompose (img : ImageData) :
    processCore img =
      ⟨img.width, img.height,
        (fillSeq (findObjectContours (createMask img))
          (cornerSeeds img.width img.height)).data.map compositePix⟩ := by
  unfold processCore
  simp only [fillSeq, cornerSeeds, List.foldl_cons, List.foldl_nil, floodFill_width,
    floodFill_height, findObjectContours_width, findObjectContours_height, createMask_width,
    createMask_height]

theorem processCore_data_eq (img : ImageData) :
    (processCore img).data =
      (fillSeq (findObjectContours (createMask img))
        (cornerSeeds img.width img.height)).data.map compositePix := by
  rw [processCore_decompose img]

theorem processCore_width_eq (img : ImageData) : (processCore img).width = img.width := by
  rw [processCore_decompose img]

theorem processCore_height_eq (img : ImageData) : (processCore img).height = img.height := by
  rw [processCore_decompose img]

/-- C8: with no STROKE pixel in the binary mask (zero components) every
stage still runs: the selector yields an all-INTERIOR mask, the corner
fills then mark everything EXTERIOR, and the output is fully transparent —
in particular on a uniformly light image, one no pixel of which falls below
the threshold under the program's binary64 luminance evaluation. -/
theorem claim_C8 (img : ImageData) (hw : 1 ≤ img.width) (hh : 1 ≤ img.height)
    (hlen : img.data.length = img.width * img.height)
    (hlight : ∀ p ∈ img.data, ¬ lum64 p.r p.g p.b < thr64) :
    (findObjectContours (createMask img)).data =
      List.replicate (img.width * img.height) whitePix ∧
    (fillSeq (findObjectContours (createMask img))
        (cornerSeeds img.width img.height)).data =
      List.replicate (img.width * img.height) redPix ∧
    (processCore img).data = List.replicate (img.width * img.height) clearPix ∧
    (processCore img).width = img.width ∧ (processCore img).height = img.height := by
  have hmasklen : (createMask img).data.length = img.width * img.height := by
    unfold createMask
    simp only [List.length_map]
    exact hlen
  have hnb : ∀ i, i < img.width * img.height → (getPix (createMask img).data i).r ≠ 0 := by
    intro i hi
    unfold createMask
    rw [getPix_map _ _ _ (by rw [hlen]; exact hi)]
    have hmem : getPix img.data i ∈ img.data := by
      rw [getPix_eq_getElem _ _ (by rw [hlen]; exact hi)]
      exact List.getElem_mem _
    unfold maskPix
    rw [if_neg (hlight _ hmem)]
    decide
  have hsel := findObjectContours_no_black (createMask img)
    (by rw [createMask_width, createMask_height]; exact hnb)
  have hselw : (findObjectContours (createMask img)).width = img.width := by
    rw [findObjectContours_width, createMask_width]
  have hselh : (findObjectContours (createMask img)).height = img.height := by
    rw [findObjectContours_height, createMask_height]
  have hseldata : (findObjectContours (createMask img)).data =
      List.replicate (img.width * img.height) whitePix := by
    rw [hsel]
    rfl
  have hfillred : (fillSeq (findObjectContours (createMask img))
      (cornerSeeds img.width img.height)).data =
      List.replicate (img.width * img.height) redPix := by
    -- all cells are white, hence all reachable from (0, 0) and painted red
    set M : ImageData := findObjectContours (createMask img) with hM
    have hMwh : M.data.length = M.width * M.height := by
      rw [hseldata, List.length_replicate, hselw, hselh]
    obtain ⟨hflen, hfpt⟩ := fillSeq_spec (cornerSeeds img.width img.height) M hMwh
    have hgoodall : ∀ q : ℤ × ℤ, inRange M.width M.height q →
        goodW M.width M.height M.data q := by
      intro q hq
      refine ⟨hq, ?_⟩
      rw [hseldata]
      have hqlt : idxOf M.width q.1 q.2 < img.width * img.height := by
        rw [hselw, hselh] at hq
        rw [hselw]
        exact idxOf_lt hq
      rw [getPix_replicate _ _ _ hqlt]
      decide
    have hfw : (fillSeq M (cornerSeeds img.width img.height)).width = M.width :=
      fillSeq_width _ _
    have hfh : (fillSeq M (cornerSeeds img.width img.height)).height = M.height :=
      fillSeq_height _ _
    have hred : ∀ p : ℤ × ℤ, inRange M.width M.height p →
        getPix (fillSeq M (cornerSeeds img.width img.height)).data
          (idxOf M.width p.1 p.2) = redPix := by
      intro p hp
      refine (hfpt p hp).1 ⟨(0, 0), ?_, reach_of_all_good hgoodall p hp⟩
      unfold cornerSeeds
      exact List.mem_cons_self _ _
    have := data_eq_replicate_of_pointwise (fillSeq M (cornerSeeds img.width img.height))
      redPix (by rw [hflen, hMwh, hfw, hfh]) (by rw [hfw, hfh]; exact hred)
    rw [hfw, hfh, hselw, hselh] at this
    exact this
  refine ⟨hseldata, hfillred, ?_, processCore_width_eq img, processCore_height_eq img⟩
  rw [processCore_data_eq, hfillred, List.map_replicate]
  rfl

theorem claim_C8_witness :
    (1 ≤ lightImg.width ∧ 1 ≤ lightImg.height ∧
      lightImg.data.length = lightImg.width * lightImg.height) ∧
    (processCore lightImg).data =
      List.replicate (lightImg.width * lightImg.height) clearPix :=
  ⟨⟨by decide, by decide, by decide⟩,
    (claim_C8 lightImg (by decide) (by decide) (by decide)
      (fun p hp => by
        rw [List.eq_of_mem_replicate hp]
        decide)).2.2.1⟩

set_option maxRecDepth 100000 in
/-- C7: on the 10×10 black square-ring input (rows and columns 2..7 dark,
all else light), the pipeline outputs the ring opaque black, the enclosed
3..6 region opaque white, and everything else transparent. -/
theorem claim_C7 : processCore inputC7 = expectedC7 := by
  decide

/-! ### Generic list access lemmas for the labeling pass -/

theorem getD_set_self {α : Type _} (l : List α) (i : ℕ) (a d : α) (h : i < l.length) :
    (l.set i a).getD i d = a := by
  rw [List.getD_eq_getElem?_getD, List.getElem?_set_self h, Option.getD_some]

theorem getD_set_ne {α : Type _} (l : List α) {i j : ℕ} (a d : α) (h : i ≠ j) :
    (l.set i a).getD j d = l.getD j d := by
  rw [List.getD_eq_getElem?_getD, List.getElem?_set_ne h, List.getD_eq_getElem?_getD]

theorem getD_replicate_self {α : Type _} (n i : ℕ) (a : α) :
    (List.replicate n a).getD i a = a := by
  rw [List.getD_eq_getElem?_getD, List.getElem?_replicate]
  split <;> rfl

theorem foldr_min_le_init (xs : List ℤ) (a : ℤ) : xs.foldr min a ≤ a := by
  induction xs with
  | nil => exact le_refl a
  | cons x t ih => exact le_trans (min_le_right _ _) ih

theorem foldr_min_le_mem (xs : List ℤ) (a : ℤ) : ∀ x ∈ xs, xs.foldr min a ≤ x := by
  induction xs with
  | nil => intro x hx; exact absurd hx (List.not_mem_nil x)
  | cons y t ih =>
    intro x hx
    rcases List.mem_cons.mp hx with rfl | hx
    · exact min_le_left _ _
    · exact le_trans (min_le_right _ _) (ih x hx)

theorem foldr_min_mem_or (xs : List ℤ) (a : ℤ) :
    xs.foldr min a = a ∨ xs.foldr min a ∈ xs := by
  induction xs with
  | nil => exact Or.inl rfl
  | cons y t ih =>
    simp only [List.foldr_cons]
    rcases le_total y (t.foldr min a) with hle | hle
    · rw [min_eq_left hle]
      exact Or.inr (List.mem_cons_self _ _)
    · rw [min_eq_right hle]
      rcases ih with he | hm
      · exact Or.inl he
      · exact Or.inr (List.mem_cons_of_mem _ hm)

theorem foldr_max_ge_init (xs : List ℤ) (a : ℤ) : a ≤ xs.foldr max a := by
  induction xs with
  | nil => exact le_refl a
  | cons x t ih => exact le_trans ih (le_max_right _ _)

theorem foldr_max_ge_mem (xs : List ℤ) (a : ℤ) : ∀ x ∈ xs, x ≤ xs.foldr max a := by
  induction xs with
  | nil => intro x hx; exact absurd hx (List.not_mem_nil x)
  | cons y t ih =>
    intro x hx
    rcases List.mem_cons.mp hx with rfl | hx
    · exact le_max_left _ _
    · exact le_trans (ih x hx) (le_max_right _ _)

theorem foldr_max_mem_or (xs : List ℤ) (a : ℤ) :
    xs.foldr max a = a ∨ xs.foldr max a ∈ xs := by
  induction xs with
  | nil => exact Or.inl rfl
  | cons y t ih =>
    simp only [List.foldr_cons]
    rcases le_total y (t.foldr max a) with hle | hle
    · rw [max_eq_right hle]
      rcases ih with he | hm
      · exact Or.inl he
      · exact Or.inr (List.mem_cons_of_mem _ hm)
    · rw [max_eq_left hle]
      exact Or.inr (List.mem_cons_self _ _)

/-! ### Visited-array lemmas -/

theorem visAt_set_self {w h : ℕ} {v : List Bool} {q : ℤ × ℤ} (hq : inRange w h q)
    (hlen : v.length = w * h) : visAt (v.set (idxOf w q.1 q.2) true) w q := by
  unfold visAt
  rw [getD_set_self _ _ _ _ (by rw [hlen]; exact idxOf_lt hq)]

theorem visAt_set_iff {w h : ℕ} {v : List Bool} {q : ℤ × ℤ} (hq : inRange w h q)
    (hlen : v.length = w * h) {p : ℤ × ℤ} (hp : inRange w h p) :
    (visAt (v.set (idxOf w q.1 q.2) true) w p ↔ (p = q ∨ visAt v w p)) := by
  by_cases hpq : p = q
  · subst hpq
    exact iff_of_true (visAt_set_self hp hlen) (Or.inl rfl)
  · unfold visAt
    rw [getD_set_ne _ _ _ fun he => hpq (idxOf_inj hq hp he).symm]
    simp [hpq]

theorem visAt_mono_set {w : ℕ} {v : List Bool} {i : ℕ} {p : ℤ × ℤ}
    (hvis : visAt v w p) : visAt (v.set i true) w p := by
  unfold visAt at hvis ⊢
  by_cases hij : i = idxOf w p.1 p.2
  · subst hij
    by_cases hlt : idxOf w p.1 p.2 < v.length
    · rw [getD_set_self _ _ _ _ hlt]
    · rw [List.set_eq_of_length_le (by omega)]
      exact hvis
  · rw [getD_set_ne _ _ _ hij]
    exact hvis

/-- Transfer of membership in a closed visited set along a good path. -/
theorem visAt_transfer {w h : ℕ} {data : List Pix} {V0 : List Bool}
    (hclosed : ∀ p q : ℤ × ℤ, inRange w h p → visAt V0 w p → adj p q →
      goodB w h data q → visAt V0 w q)
    {a b : ℤ × ℤ} (hre : Reach (goodB w h data) a b) (ha : visAt V0 w a) :
    visAt V0 w b := by
  induction hre with
  | refl hq => exact ha
  | step h1 hadj hg ih =>
    rename_i qq rr
    exact hclosed qq rr (reach_good_right h1).1 ih hadj hg

/-! ### The labeling DFS: neighbor loop -/

theorem tryPush_foldl (w h : ℕ) (data : List Pix) (V0 : List Bool) (p0 c : ℤ × ℤ) :
    ∀ (ns : List (ℤ × ℤ)) (s : DfsState),
      (∀ n ∈ ns, adj c n) →
      DfsMid w h data V0 p0 c ns s →
      DfsMid w h data V0 p0 c [] (ns.foldl (tryPush w h data) s) ∧
      (ns.foldl (tryPush w h data) s).pixels = s.pixels ∧
      (ns.foldl (tryPush w h data) s).minX = s.minX ∧
      (ns.foldl (tryPush w h data) s).minY = s.minY ∧
      (ns.foldl (tryPush w h data) s).maxX = s.maxX ∧
      (ns.foldl (tryPush w h data) s).maxY = s.maxY ∧
      (ns.foldl (tryPush w h data) s).stack.length +
          (ns.foldl (tryPush w h data) s).visited.count false =
        s.stack.length + s.visited.count false := by
  intro ns
  induction ns with
  | nil =>
    intro s hadj hmid
    exact ⟨hmid, rfl, rfl, rfl, rfl, rfl, rfl⟩
  | cons n ns2 ih =>
    intro s hadj hmid
    rw [List.foldl_cons]
    by_cases hin : inRange w h n
    · by_cases hcond : (getPix data (idxOf w n.1 n.2)).r = 0 ∧
          s.visited.getD (idxOf w n.1 n.2) false = false
      · -- the neighbor is a fresh dark cell: mark it and push it
        have hs2 : tryPush w h data s n =
            { s with visited := s.visited.set (idxOf w n.1 n.2) true, stack := n :: s.stack } := by
          unfold tryPush
          rw [if_pos hin]
          exact if_pos hcond
        rw [hs2]
        have hgoodn : goodB w h data n := ⟨hin, hcond.1⟩
        have hnvis : ¬ visAt s.visited w n := by
          unfold visAt
          rw [hcond.2]
          exact Bool.false_ne_true
        have hnails : n ∉ s.stack ∧ n ∉ s.pixels ∧ ¬ visAt V0 w n := by
          have := hmid.vis_iff n hin
          constructor
          · intro hmem; exact hnvis (this.mpr (Or.inr (Or.inl hmem)))
          constructor
          · intro hmem; exact hnvis (this.mpr (Or.inr (Or.inr hmem)))
          · intro hmem; exact hnvis (this.mpr (Or.inl hmem))
        have hmid2 : DfsMid w h data V0 p0 c ns2
            { s with visited := s.visited.set (idxOf w n.1 n.2) true, stack := n :: s.stack } := by
          refine ⟨?_, ?_, ?_, ?_, ?_, ?_, ?_, hmid.reach_c, hmid.c_pix⟩
          · simp only [List.length_set]
            exact hmid.vlen
          · intro p hp
            simp only
            rw [visAt_set_iff hin hmid.vlen hp]
            rw [hmid.vis_iff p hp]
            simp only [List.mem_cons]
            tauto
          · intro p hp
            rcases List.mem_cons.mp hp with rfl | hp2
            · exact ⟨hgoodn,
                Reach.step hmid.reach_c (hadj p (List.mem_cons_self _ _)) hgoodn,
                hnails.2.2⟩
            · exact hmid.stack_good p hp2
          · exact hmid.pixels_good
          · simp only [List.cons_append, List.nodup_cons]
            refine ⟨?_, hmid.nodup⟩
            intro hmem
            rcases List.mem_append.mp hmem with hm | hm
            · exact hnails.1 hm
            · exact hnails.2.1 hm
          · intro p hp q hadjq hgq
            rcases hmid.frontier p hp q hadjq hgq with hv | ⟨hpc, hqmem⟩
            · exact Or.inl (visAt_mono_set hv)
            · rcases List.mem_cons.mp hqmem with rfl | hq2
              · exact Or.inl (visAt_set_self hin hmid.vlen)
              · exact Or.inr ⟨hpc, hq2⟩
          · rcases hmid.start_in with hm | hm
            · exact Or.inl (List.mem_cons_of_mem _ hm)
            · exact Or.inr hm
        obtain ⟨hc1, hc2, hc3, hc4, hc5, hc6, hc7⟩ := ih _
          (fun n2 hn2 => hadj n2 (List.mem_cons_of_mem _ hn2)) hmid2
        refine ⟨hc1, hc2, hc3, hc4, hc5, hc6, ?_⟩
        rw [hc7]
        have hcnt := countP_set_true_of_false s.visited (idxOf w n.1 n.2)
          (by rw [hmid.vlen]; exact idxOf_lt hin) hcond.2
        simp only [List.length_cons]
        omega
      · -- visited or light neighbor: no change
        have hs2 : tryPush w h data s n = s := by
          unfold tryPush
          rw [if_pos hin]
          exact if_neg hcond
        rw [hs2]
        refine ih s (fun n2 hn2 => hadj n2 (List.mem_cons_of_mem _ hn2)) ?_
        refine ⟨hmid.vlen, hmid.vis_iff, hmid.stack_good, hmid.pixels_good, hmid.nodup, ?_,
          hmid.start_in, hmid.reach_c, hmid.c_pix⟩
        intro p hp q hadjq hgq
        rcases hmid.frontier p hp q hadjq hgq with hv | ⟨hpc, hqmem⟩
        · exact Or.inl hv
        · rcases List.mem_cons.mp hqmem with rfl | hq2
          · left
            unfold visAt
            rcases Bool.eq_false_or_eq_true (s.visited.getD (idxOf w q.1 q.2) false) with hb | hb
            · exact hb
            · exact absurd ⟨hgq.2, hb⟩ hcond
          · exact Or.inr ⟨hpc, hq2⟩
    · -- out-of-range neighbor: no change
      have hs2 : tryPush w h data s n = s := by
        unfold tryPush
        rw [if_neg hin]
      rw [hs2]
      refine ih s (fun n2 hn2 => hadj n2 (List.mem_cons_of_mem _ hn2)) ?_
      refine ⟨hmid.vlen, hmid.vis_iff, hmid.stack_good, hmid.pixels_good, hmid.nodup, ?_,
        hmid.start_in, hmid.reach_c, hmid.c_pix⟩
      intro p hp q hadjq hgq
      rcases hmid.frontier p hp q hadjq hgq with hv | ⟨hpc, hqmem⟩
      · exact Or.inl hv
      · rcases List.mem_cons.mp hqmem with rfl | hq2
        · exact absurd hgq.1 hin
        · exact Or.inr ⟨hpc, hq2⟩

/-! ### The labeling DFS: main loop -/

theorem dfsLoop_spec (w h : ℕ) (data : List Pix) (V0 : List Bool) (p0 : ℤ × ℤ) :
    ∀ (fuel : ℕ) (s : DfsState),
      DfsInv w h data V0 p0 s →
      s.stack.length + s.visited.count false ≤ fuel →
      DfsInv w h data V0 p0 (dfsLoop w h data fuel s) ∧
      (dfsLoop w h data fuel s).stack = [] := by
  intro fuel
  induction fuel with
  | zero =>
    intro s hinv hfuel
    have hnil : s.stack = [] := by
      cases hs : s.stack with
      | nil => rfl
      | cons a t => rw [hs] at hfuel; simp at hfuel
    exact ⟨hinv, hnil⟩
  | succ fm ih =>
    intro s hinv hfuel
    cases hstack : s.stack with
    | nil =>
      have hid : dfsLoop w h data (fm + 1) s = s := by
        simp only [dfsLoop, hstack]
      rw [hid]
      exact ⟨hinv, hstack⟩
    | cons c rest =>
      obtain ⟨cx, cy⟩ := c
      have hred : dfsLoop w h data (fm + 1) s = dfsLoop w h data fm (dfsStep w h data cx cy
          { stack := rest, visited := s.visited, pixels := (cx, cy) :: s.pixels,
            minX := min s.minX cx, minY := min s.minY cy,
            maxX := max s.maxX cx, maxY := max s.maxY cy }) := by
        simp only [dfsLoop, hstack]
      rw [hred]
      have hcmem : (cx, cy) ∈ s.stack := by rw [hstack]; exact List.mem_cons_self _ _
      have hcg := hinv.stack_good (cx, cy) hcmem
      set s1 : DfsState :=
        { stack := rest, visited := s.visited, pixels := (cx, cy) :: s.pixels,
          minX := min s.minX cx, minY := min s.minY cy,
          maxX := max s.maxX cx, maxY := max s.maxY cy } with hs1
      have hmid : DfsMid w h data V0 p0 (cx, cy) (neighborsOf cx cy) s1 := by
        refine ⟨hinv.vlen, ?_, ?_, ?_, ?_, ?_, ?_, hcg.2.1, List.mem_cons_self _ _⟩
        · intro p hp
          have := hinv.vis_iff p hp
          rw [hstack] at this
          rw [this]
          simp only [hs1, List.mem_cons]
          tauto
        · intro p hp
          exact hinv.stack_good p (by rw [hstack]; exact List.mem_cons_of_mem _ hp)
        · intro p hp
          rcases List.mem_cons.mp hp with rfl | hp2
          · exact hcg
          · exact hinv.pixels_good p hp2
        · have hnd := hinv.nodup
          rw [hstack] at hnd
          exact (List.perm_middle.nodup_iff).mpr hnd
        · intro p hp q hadjq hgq
          rcases List.mem_cons.mp hp with rfl | hp2
          · exact Or.inr ⟨rfl, adj_iff_mem_neighbors.mp hadjq⟩
          · exact Or.inl (hinv.frontier p hp2 q hadjq hgq)
        · rcases hinv.start_in with hm | hm
          · rw [hstack] at hm
            rcases List.mem_cons.mp hm with rfl | hm2
            · exact Or.inr (List.mem_cons_self _ _)
            · exact Or.inl hm2
          · exact Or.inr (List.mem_cons_of_mem _ hm)
      obtain ⟨hc1, hc2, hc3, hc4, hc5, hc6, hc7⟩ := tryPush_foldl w h data V0 p0 (cx, cy)
        (neighborsOf cx cy) s1 (fun n hn => adj_iff_mem_neighbors.mpr hn) hmid
      have hinv2 : DfsInv w h data V0 p0
          (List.foldl (tryPush w h data) s1 (neighborsOf cx cy)) := by
        refine ⟨hc1.vlen, hc1.vis_iff, hc1.stack_good, hc1.pixels_good, hc1.nodup, ?_,
          hc1.start_in, ?_, ?_, ?_, ?_⟩
        · intro p hp q hadjq hgq
          rcases hc1.frontier p hp q hadjq hgq with hv | ⟨-, hq⟩
          · exact hv
          · exact absurd hq (List.not_mem_nil q)
        · rw [hc3, hc2]
          show min s.minX cx = (((cx, cy) :: s.pixels).map Prod.fst).foldr min (w : ℤ)
          simp only [List.map_cons, List.foldr_cons]
          rw [← hinv.minx]
          exact min_comm _ _
        · rw [hc4, hc2]
          show min s.minY cy = (((cx, cy) :: s.pixels).map Prod.snd).foldr min (h : ℤ)
          simp only [List.map_cons, List.foldr_cons]
          rw [← hinv.miny]
          exact min_comm _ _
        · rw [hc5, hc2]
          show max s.maxX cx = (((cx, cy) :: s.pixels).map Prod.fst).foldr max (-1)
          simp only [List.map_cons, List.foldr_cons]
          rw [← hinv.maxx]
          exact max_comm _ _
        · rw [hc6, hc2]
          show max s.maxY cy = (((cx, cy) :: s.pixels).map Prod.snd).foldr max (-1)
          simp only [List.map_cons, List.foldr_cons]
          rw [← hinv.maxy]
          exact max_comm _ _
      refine ih (dfsStep w h data cx cy s1) hinv2 ?_
      have hlen : s.stack.length = rest.length + 1 := by rw [hstack]; rfl
      show (List.foldl (tryPush w h data) s1 (neighborsOf cx cy)).stack.length +
        (List.foldl (tryPush w h data) s1 (neighborsOf cx cy)).visited.count false ≤ fm
      rw [hc7]
      show rest.length + s.visited.count false ≤ fm
      omega

/-- At the end of the DFS (empty stack), the collected pixels are exactly
the 4-connected dark component of the start pixel. -/
theorem dfsInv_final (w h : ℕ) (data : List Pix) (V0 : List Bool) (p0 : ℤ × ℤ)
    (hclosed : ∀ p q : ℤ × ℤ, inRange w h p → visAt V0 w p → adj p q →
      goodB w h data q → visAt V0 w q)
    (hp0 : ¬ visAt V0 w p0)
    {r : DfsState} (hinv : DfsInv w h data V0 p0 r) (hstk : r.stack = []) :
    (∀ p : ℤ × ℤ, p ∈ r.pixels ↔ Reach (goodB w h data) p0 p) ∧
    r.pixels.Nodup ∧
    (∀ p : ℤ × ℤ, inRange w h p → (visAt r.visited w p ↔ (visAt V0 w p ∨ p ∈ r.pixels))) ∧
    p0 ∈ r.pixels := by
  have hdisj : ∀ p : ℤ × ℤ, Reach (goodB w h data) p0 p → ¬ visAt V0 w p := by
    intro p hre hvis
    exact hp0 (visAt_transfer hclosed (reach_symm hre) hvis)
  have hp0pix : p0 ∈ r.pixels := by
    rcases hinv.start_in with hm | hm
    · rw [hstk] at hm; exact absurd hm (List.not_mem_nil p0)
    · exact hm
  have hcomplete : ∀ p : ℤ × ℤ, Reach (goodB w h data) p0 p → p ∈ r.pixels := by
    intro p hre
    induction hre with
    | refl hq => exact hp0pix
    | step h1 hadj hg ih =>
      rename_i qq rr
      have hvisr := hinv.frontier qq ih rr hadj hg
      rcases (hinv.vis_iff rr hg.1).mp hvisr with hv0 | hstk2 | hpix
      · exact absurd hv0 (hdisj rr (Reach.step h1 hadj hg))
      · rw [hstk] at hstk2; exact absurd hstk2 (List.not_mem_nil rr)
      · exact hpix
  refine ⟨fun p => ⟨fun hp => (hinv.pixels_good p hp).2.1, hcomplete p⟩, ?_, ?_, hp0pix⟩
  · have hnd := hinv.nodup
    rw [hstk] at hnd
    simpa using hnd
  · intro p hp
    have hvi := hinv.vis_iff p hp
    rw [hstk] at hvi
    simpa using hvi

/-- One row-major scan step preserves the scan invariant; it leaves the
visited set monotone and visits the scanned cell when it is dark. -/
theorem scanStep_spec (w h : ℕ) (data : List Pix) (acc : List Bool × List Component)
    (hinv : ScanInv w h data acc) (c : ℕ × ℕ) (hc1 : c.1 < w) (hc2 : c.2 < h) :
    ScanInv w h data (scanStep w h data acc c) ∧
    (∀ p : ℤ × ℤ, inRange w h p → visAt acc.1 w p → visAt (scanStep w h data acc c).1 w p) ∧
    (goodB w h data ((c.1 : ℤ), (c.2 : ℤ)) →
      visAt (scanStep w h data acc c).1 w ((c.1 : ℤ), (c.2 : ℤ))) := by
  have hidx : idxOf w (c.1 : ℤ) (c.2 : ℤ) = c.2 * w + c.1 := idxOf_natCast w c.1 c.2
  have hstartin : inRange w h ((c.1 : ℤ), (c.2 : ℤ)) := by
    refine ⟨by positivity, ?_, by positivity, ?_⟩
    · show ((c.1 : ℕ) : ℤ) < (w : ℤ)
      exact_mod_cast hc1
    · show ((c.2 : ℕ) : ℤ) < (h : ℤ)
      exact_mod_cast hc2
  by_cases hcond : (getPix data (c.2 * w + c.1)).r = 0 ∧
      acc.1.getD (c.2 * w + c.1) false = false
  · -- a fresh dark cell: run the DFS
    set start : ℤ × ℤ := ((c.1 : ℤ), (c.2 : ℤ)) with hstart
    set s0 : DfsState := ⟨[start], acc.1.set (c.2 * w + c.1) true, [],
      (w : ℤ), (h : ℤ), -1, -1⟩ with hs0
    have hstep : scanStep w h data acc c =
        ((dfsLoop w h data (w * h + 1) s0).visited,
          acc.2 ++ [⟨(dfsLoop w h data (w * h + 1) s0).pixels,
            (dfsLoop w h data (w * h + 1) s0).minX, (dfsLoop w h data (w * h + 1) s0).minY,
            (dfsLoop w h data (w * h + 1) s0).maxX,
            (dfsLoop w h data (w * h + 1) s0).maxY⟩]) := by
      simp only [scanStep]
      rw [if_pos hcond]
    have hnvis : ¬ visAt acc.1 w start := by
      unfold visAt
      rw [hstart]
      simp only
      rw [hidx, hcond.2]
      exact Bool.false_ne_true
    have hsgood : goodB w h data start := by
      refine ⟨hstartin, ?_⟩
      rw [hstart]
      simp only
      rw [hidx]
      exact hcond.1
    have hinv0 : DfsInv w h data acc.1 start s0 := by
      refine ⟨?_, ?_, ?_, ?_, ?_, ?_, Or.inl (List.mem_cons_self _ _), rfl, rfl, rfl, rfl⟩
      · simp only [hs0, List.length_set]
        exact hinv.vlen
      · intro p hp
        show visAt (acc.1.set (c.2 * w + c.1) true) w p ↔ _
        rw [← hidx]
        rw [visAt_set_iff hstartin hinv.vlen hp]
        simp only [List.mem_cons, List.not_mem_nil, or_false]
        tauto
      · intro p hp
        rcases List.mem_cons.mp hp with rfl | hp2
        · exact ⟨hsgood, Reach.refl _ hsgood, hnvis⟩
        · exact absurd hp2 (List.not_mem_nil p)
      · intro p hp
        exact absurd hp (List.not_mem_nil p)
      · simp
      · intro p hp
        exact absurd hp (List.not_mem_nil p)
    have hfuel : s0.stack.length + s0.visited.count false ≤ w * h + 1 := by
      have hlen : s0.visited.length = w * h := by
        simp only [hs0, List.length_set]
        exact hinv.vlen
      have hcnt := List.count_le_length false s0.visited
      have hstk1 : s0.stack.length = 1 := by simp [hs0]
      omega
    obtain ⟨hloop, hstk⟩ := dfsLoop_spec w h data acc.1 start (w * h + 1) s0 hinv0 hfuel
    obtain ⟨hiff, hnodup, hvisf, hstartpix⟩ :=
      dfsInv_final w h data acc.1 start hinv.closed hnvis hloop hstk
    set r := dfsLoop w h data (w * h + 1) s0 with hr
    have hpixgood : ∀ p ∈ r.pixels, goodB w h data p := fun p hp =>
      (hloop.pixels_good p hp).1
    have hpixnotV0 : ∀ p ∈ r.pixels, ¬ visAt acc.1 w p := fun p hp =>
      (hloop.pixels_good p hp).2.2
    rw [hstep]
    refine ⟨?_, ?_, ?_⟩
    · -- the scan invariant for the extended accumulator
      refine ⟨hloop.vlen, ?_, ?_, ?_, ?_, ?_, ?_⟩
      · -- closed
        intro p q hp hvp hadjq hgq
        rcases (hvisf p hp).mp hvp with hv0 | hpix
        · exact (hvisf q hgq.1).mpr (Or.inl (hinv.closed p q hp hv0 hadjq hgq))
        · have : Reach (goodB w h data) start q :=
            Reach.step ((hiff p).mp hpix) hadjq hgq
          exact (hvisf q hgq.1).mpr (Or.inr ((hiff q).mpr this))
      · -- comp_class
        intro c2 hc2m
        rcases List.mem_append.mp hc2m with hold | hnew
        · exact hinv.comp_class c2 hold
        · rw [List.mem_singleton.mp hnew]
          exact ⟨start, hsgood, hiff⟩
      · -- comp_nodup
        intro c2 hc2m
        rcases List.mem_append.mp hc2m with hold | hnew
        · exact hinv.comp_nodup c2 hold
        · rw [List.mem_singleton.mp hnew]
          exact hnodup
      · -- comp_bbox
        intro c2 hc2m
        rcases List.mem_append.mp hc2m with hold | hnew
        · exact hinv.comp_bbox c2 hold
        · rw [List.mem_singleton.mp hnew]
          have hsx : start.1 ∈ r.pixels.map Prod.fst := List.mem_map_of_mem _ hstartpix
          have hsy : start.2 ∈ r.pixels.map Prod.snd := List.mem_map_of_mem _ hstartpix
          have hxlt : ∀ x ∈ r.pixels.map Prod.fst, 0 ≤ x ∧ x < (w : ℤ) := by
            intro x hx
            obtain ⟨p, hp, rfl⟩ := List.mem_map.mp hx
            have := (hpixgood p hp).1
            exact ⟨this.1, this.2.1⟩
          have hylt : ∀ y ∈ r.pixels.map Prod.snd, 0 ≤ y ∧ y < (h : ℤ) := by
            intro y hy
            obtain ⟨p, hp, rfl⟩ := List.mem_map.mp hy
            have := (hpixgood p hp).1
            exact ⟨this.2.2.1, this.2.2.2⟩
          refine ⟨⟨?_, ?_⟩, ⟨?_, ?_⟩, ⟨?_, ?_⟩, ⟨?_, ?_⟩⟩
          · rw [hloop.minx]
            rcases foldr_min_mem_or (r.pixels.map Prod.fst) (w : ℤ) with he | hm
            · exfalso
              have h1 := foldr_min_le_mem (r.pixels.map Prod.fst) (w : ℤ) _ hsx
              have h2 := (hxlt _ hsx).2
              omega
            · exact hm
          · intro p hp
            rw [hloop.minx]
            exact foldr_min_le_mem _ _ _ (List.mem_map_of_mem _ hp)
          · rw [hloop.miny]
            rcases foldr_min_mem_or (r.pixels.map Prod.snd) (h : ℤ) with he | hm
            · exfalso
              have h1 := foldr_min_le_mem (r.pixels.map Prod.snd) (h : ℤ) _ hsy
              have h2 := (hylt _ hsy).2
              omega
            · exact hm
          · intro p hp
            rw [hloop.miny]
            exact foldr_min_le_mem _ _ _ (List.mem_map_of_mem _ hp)
          · rw [hloop.maxx]
            rcases foldr_max_mem_or (r.pixels.map Prod.fst) (-1) with he | hm
            · exfalso
              have h1 := foldr_max_ge_mem (r.pixels.map Prod.fst) (-1) _ hsx
              have h2 := (hxlt _ hsx).1
              omega
            · exact hm
          · intro p hp
            rw [hloop.maxx]
            exact foldr_max_ge_mem _ _ _ (List.mem_map_of_mem _ hp)
          · rw [hloop.maxy]
            rcases foldr_max_mem_or (r.pixels.map Prod.snd) (-1) with he | hm
            · exfalso
              have h1 := foldr_max_ge_mem (r.pixels.map Prod.snd) (-1) _ hsy
              have h2 := (hylt _ hsy).1
              omega
            · exact hm
          · intro p hp
            rw [hloop.maxy]
            exact foldr_max_ge_mem _ _ _ (List.mem_map_of_mem _ hp)
      · -- disj
        rw [List.pairwise_append]
        refine ⟨hinv.disj, List.pairwise_singleton _ _, ?_⟩
        intro c1 hc1m c2 hc2m p hp1
        rw [List.mem_singleton.mp hc2m]
        intro hp2
        have hgood1 := hinv.comp_class c1 hc1m
        obtain ⟨st1, -, hiff1⟩ := hgood1
        have hre1 := (hiff1 p).mp hp1
        have hpin : inRange w h p := (reach_good_right hre1).1
        have hv0 : visAt acc.1 w p := (hinv.vis_union p hpin).mpr ⟨c1, hc1m, hp1⟩
        exact hpixnotV0 p hp2 hv0
      · -- vis_union
        intro p hp
        rw [hvisf p hp, hinv.vis_union p hp]
        constructor
        · rintro (⟨c1, hc1m, hp1⟩ | hpix)
          · exact ⟨c1, List.mem_append_left _ hc1m, hp1⟩
          · exact ⟨_, List.mem_append_right _ (List.mem_singleton_self _), hpix⟩
        · rintro ⟨c1, hc1m, hp1⟩
          rcases List.mem_append.mp hc1m with hold | hnew
          · exact Or.inl ⟨c1, hold, hp1⟩
          · rw [List.mem_singleton.mp hnew] at hp1
            exact Or.inr hp1
    · -- monotone
      intro p hp hvp
      exact (hvisf p hp).mpr (Or.inl hvp)
    · -- the scanned dark cell is visited
      intro hg
      exact (hvisf start hstartin).mpr (Or.inr hstartpix)
  · -- already visited or not dark: no change
    have hstep : scanStep w h data acc c = acc := by
      simp only [scanStep]
      rw [if_neg hcond]
    rw [hstep]
    refine ⟨hinv, fun p hp hvp => hvp, ?_⟩
    intro hg
    unfold visAt
    simp only
    rw [hidx]
    rcases Bool.eq_false_or_eq_true (acc.1.getD (c.2 * w + c.1) false) with hb | hb
    · exact hb
    · exfalso
      apply hcond
      refine ⟨?_, hb⟩
      have := hg.2
      rw [hidx] at this
      exact this

theorem scan_fold_spec (w h : ℕ) (data : List Pix) :
    ∀ (l : List (ℕ × ℕ)) (acc : List Bool × List Component),
      (∀ c ∈ l, c.1 < w ∧ c.2 < h) → ScanInv w h data acc →
      ScanInv w h data (l.foldl (scanStep w h data) acc) ∧
      (∀ p : ℤ × ℤ, inRange w h p → visAt acc.1 w p →
        visAt (l.foldl (scanStep w h data) acc).1 w p) ∧
      (∀ c ∈ l, goodB w h data ((c.1 : ℤ), (c.2 : ℤ)) →
        visAt (l.foldl (scanStep w h data) acc).1 w ((c.1 : ℤ), (c.2 : ℤ))) := by
  intro l
  induction l with
  | nil =>
    intro acc _ hinv
    exact ⟨hinv, fun p _ hv => hv, fun c hc => absurd hc (List.not_mem_nil c)⟩
  | cons c t ih =>
    intro acc hl hinv
    obtain ⟨hc1, hc2⟩ := hl c (List.mem_cons_self _ _)
    obtain ⟨hinv2, hmono, hvisc⟩ := scanStep_spec w h data acc hinv c hc1 hc2
    rw [List.foldl_cons]
    obtain ⟨hinv3, hmono2, hvis2⟩ := ih (scanStep w h data acc c)
      (fun c2 hc2m => hl c2 (List.mem_cons_of_mem _ hc2m)) hinv2
    refine ⟨hinv3, fun p hp hv => hmono2 p hp (hmono p hp hv), ?_⟩
    intro c2 hc2m hg
    rcases List.mem_cons.mp hc2m with rfl | hc2t
    · exact hmono2 _ hg.1 (hvisc hg)
    · exact hvis2 c2 hc2t hg

theorem scanInv_init (w h : ℕ) (data : List Pix) :
    ScanInv w h data (List.replicate (w * h) false, []) := by
  have hnv : ∀ p : ℤ × ℤ, ¬ visAt (List.replicate (w * h) false) w p := by
    intro p hv
    unfold visAt at hv
    rw [getD_replicate_self] at hv
    exact Bool.false_ne_true hv
  refine ⟨?_, ?_, ?_, ?_, ?_, ?_, ?_⟩
  · simp
  · intro p q hp hvp
    exact absurd hvp (hnv p)
  · intro c hc
    exact absurd hc (List.not_mem_nil c)
  · intro c hc
    exact absurd hc (List.not_mem_nil c)
  · intro c hc
    exact absurd hc (List.not_mem_nil c)
  · exact List.Pairwise.nil
  · intro p hp
    constructor
    · intro hv
      exact absurd hv (hnv p)
    · rintro ⟨c, hc, -⟩
      exact absurd hc (List.not_mem_nil c)

/-- Master facts about the labeling pass: each component is a full
4-connected dark class with a tight bounding box, components are pairwise
disjoint with duplicate-free pixel lists, and every dark in-range cell is
in some component. -/
theorem ccl_spec (w h : ℕ) (data : List Pix) :
    (∀ c ∈ ccl w h data, ∃ st, goodB w h data st ∧ st ∈ c.pixels ∧
      ∀ p : ℤ × ℤ, (p ∈ c.pixels ↔ Reach (goodB w h data) st p)) ∧
    (∀ c ∈ ccl w h data, c.pixels.Nodup) ∧
    (∀ c ∈ ccl w h data,
      (c.minX ∈ c.pixels.map Prod.fst ∧ ∀ p ∈ c.pixels, c.minX ≤ p.1) ∧
      (c.minY ∈ c.pixels.map Prod.snd ∧ ∀ p ∈ c.pixels, c.minY ≤ p.2) ∧
      (c.maxX ∈ c.pixels.map Prod.fst ∧ ∀ p ∈ c.pixels, p.1 ≤ c.maxX) ∧
      (c.maxY ∈ c.pixels.map Prod.snd ∧ ∀ p ∈ c.pixels, p.2 ≤ c.maxY)) ∧
    (ccl w h data).Pairwise (fun c c2 => ∀ p : ℤ × ℤ, p ∈ c.pixels → p ∉ c2.pixels) ∧
    (∀ p : ℤ × ℤ, goodB w h data p → ∃ c ∈ ccl w h data, p ∈ c.pixels) := by
  obtain ⟨hinvf, hmono, hvis⟩ := scan_fold_spec w h data (coordList w h)
    (List.replicate (w * h) false, []) coordList_lt (scanInv_init w h data)
  refine ⟨?_, hinvf.comp_nodup, hinvf.comp_bbox, hinvf.disj, ?_⟩
  · intro c hc
    obtain ⟨st, hstg, hiff⟩ := hinvf.comp_class c hc
    exact ⟨st, hstg, (hiff st).mpr (Reach.refl st hstg), hiff⟩
  · intro p hg
    have hp : inRange w h p := hg.1
    have hx : ((p.1.toNat : ℤ), (p.2.toNat : ℤ)) = p := by
      obtain ⟨h1, h2, h3, h4⟩ := hp
      rw [Int.toNat_of_nonneg h1, Int.toNat_of_nonneg h3]
    have hcmem : (p.1.toNat, p.2.toNat) ∈ coordList w h := by
      rw [mem_coordList]
      obtain ⟨h1, h2, h3, h4⟩ := hp
      omega
    have hgood2 : goodB w h data
        (((p.1.toNat, p.2.toNat).1 : ℤ), ((p.1.toNat, p.2.toNat).2 : ℤ)) := by
      show goodB w h data ((p.1.toNat : ℤ), (p.2.toNat : ℤ))
      rw [hx]
      exact hg
    have hv := hvis (p.1.toNat, p.2.toNat) hcmem hgood2
    have hv2 : visAt ((coordList w h).foldl (scanStep w h data)
        (List.replicate (w * h) false, [])).1 w ((p.1.toNat : ℤ), (p.2.toNat : ℤ)) := hv
    rw [hx] at hv2
    exact (hinvf.vis_union p hp).mp hv2

theorem count_eq_one_of_nodup_mem :
    ∀ {l : List (ℤ × ℤ)} {p : ℤ × ℤ}, l.Nodup → p ∈ l → l.count p = 1 := by
  intro l
  induction l with
  | nil => intro p _ hmem; exact absurd hmem (List.not_mem_nil p)
  | cons q t ih =>
    intro p hnd hmem
    obtain ⟨hq, ht⟩ := List.nodup_cons.mp hnd
    rw [List.count_cons]
    rcases List.mem_cons.mp hmem with rfl | hmem2
    · have h0 : t.count p = 0 := List.count_eq_zero.mpr hq
      rw [h0]
      simp
    · have hne : p ≠ q := fun he => hq (he ▸ hmem2)
      rw [ih ht hmem2]
      simp [hne, Ne.symm hne]

/-- Sum of per-component multiplicities over duplicate-free pairwise
disjoint pixel lists. -/
theorem sum_count_of_disj :
    ∀ (cs : List Component),
      (∀ c ∈ cs, c.pixels.Nodup) →
      cs.Pairwise (fun c c2 => ∀ p : ℤ × ℤ, p ∈ c.pixels → p ∉ c2.pixels) →
      ∀ p : ℤ × ℤ,
        ((∃ c ∈ cs, p ∈ c.pixels) → ((cs.map fun c => c.pixels.count p).sum = 1)) ∧
        ((¬ ∃ c ∈ cs, p ∈ c.pixels) → ((cs.map fun c => c.pixels.count p).sum = 0)) := by
  intro cs
  induction cs with
  | nil =>
    intro _ _ p
    refine ⟨?_, fun _ => rfl⟩
    rintro ⟨c, hc, -⟩
    exact absurd hc (List.not_mem_nil c)
  | cons c t ih =>
    intro hnd hpw p
    obtain ⟨hc_t, hpw_t⟩ := List.pairwise_cons.mp hpw
    obtain ⟨ih1, ih2⟩ := ih (fun c2 h2 => hnd c2 (List.mem_cons_of_mem _ h2)) hpw_t p
    simp only [List.map_cons, List.sum_cons]
    constructor
    · rintro ⟨c2, hc2, hp2⟩
      rcases List.mem_cons.mp hc2 with rfl | hc2t
      · have h1 : c2.pixels.count p = 1 :=
          count_eq_one_of_nodup_mem (hnd c2 (List.mem_cons_self _ _)) hp2
        have h0 : (t.map fun c3 => c3.pixels.count p).sum = 0 := by
          apply ih2
          rintro ⟨c3, hc3, hp3⟩
          exact hc_t c3 hc3 p hp2 hp3
        rw [h1, h0]
      · have h1 : c.pixels.count p = 0 :=
          List.count_eq_zero.mpr fun hmem => hc_t c2 hc2t p hmem hp2
        have hsum := ih1 ⟨c2, hc2t, hp2⟩
        rw [h1, hsum]
    · intro hne
      have h1 : c.pixels.count p = 0 :=
        List.count_eq_zero.mpr fun hmem => hne ⟨c, List.mem_cons_self _ _, hmem⟩
      have h0 : (t.map fun c3 => c3.pixels.count p).sum = 0 := by
        apply ih2
        rintro ⟨c3, hc3, hp3⟩
        exact hne ⟨c3, List.mem_cons_of_mem _ hc3, hp3⟩
      rw [h1, h0]

/-- C3: the components of one labeling pass partition the dark pixels —
each dark in-range cell occurs exactly once across all pixel lists, a cell
that is not a dark in-range cell occurs in none, each component is the full
4-connected dark class of some start pixel (hence maximal), and each
bounding-box field is the min/max of the member coordinates. -/
theorem claim_C3 (w h : ℕ) (data : List Pix) :
    (∀ p : ℤ × ℤ, goodB w h data p →
      ((ccl w h data).map fun c => c.pixels.count p).sum = 1) ∧
    (∀ p : ℤ × ℤ, ¬ goodB w h data p →
      ((ccl w h data).map fun c => c.pixels.count p).sum = 0) ∧
    (∀ c ∈ ccl w h data, ∃ st, ∀ p : ℤ × ℤ,
      (p ∈ c.pixels ↔ Reach (goodB w h data) st p)) ∧
    (∀ c ∈ ccl w h data,
      (c.minX ∈ c.pixels.map Prod.fst ∧ ∀ p ∈ c.pixels, c.minX ≤ p.1) ∧
      (c.minY ∈ c.pixels.map Prod.snd ∧ ∀ p ∈ c.pixels, c.minY ≤ p.2) ∧
      (c.maxX ∈ c.pixels.map Prod.fst ∧ ∀ p ∈ c.pixels, p.1 ≤ c.maxX) ∧
      (c.maxY ∈ c.pixels.map Prod.snd ∧ ∀ p ∈ c.pixels, p.2 ≤ c.maxY)) := by
  obtain ⟨hclass, hnodup, hbbox, hdisj, hcover⟩ := ccl_spec w h data
  refine ⟨?_, ?_, ?_, hbbox⟩
  · intro p hg
    exact (sum_count_of_disj (ccl w h data) hnodup hdisj p).1 (hcover p hg)
  · intro p hg
    refine (sum_count_of_disj (ccl w h data) hnodup hdisj p).2 ?_
    rintro ⟨c, hc, hp⟩
    obtain ⟨st, -, -, hiff⟩ := hclass c hc
    exact hg (reach_good_right ((hiff p).mp hp))
  · intro c hc
    obtain ⟨st, -, -, hiff⟩ := hclass c hc
    exact ⟨st, hiff⟩

theorem claim_C3_witness :
    goodB 1 1 [blackPix] (0, 0) ∧
    ((ccl 1 1 [blackPix]).map fun c => c.pixels.count (0, 0)).sum = 1 :=
  ⟨by decide, (claim_C3 1 1 [blackPix]).1 (0, 0) (by decide)⟩

/-- Characterization of the strict-greater `maxArea` scan: either no
element beats the initial value, or the result is the earliest element
attaining the running maximum. -/
theorem selStep_fold :
    ∀ (l : List Component) (b : Component) (a : ℤ),
      ((l.foldl selStep (b, a)).1 = b ∧ (l.foldl selStep (b, a)).2 = a ∧
        ∀ c ∈ l, area c ≤ a) ∨
      (∃ l1 l2, l = l1 ++ (l.foldl selStep (b, a)).1 :: l2 ∧
        (l.foldl selStep (b, a)).2 = area (l.foldl selStep (b, a)).1 ∧
        a < (l.foldl selStep (b, a)).2 ∧
        (∀ c ∈ l1, area c < (l.foldl selStep (b, a)).2) ∧
        (∀ c ∈ l2, area c ≤ (l.foldl selStep (b, a)).2)) := by
  intro l
  induction l with
  | nil =>
    intro b a
    exact Or.inl ⟨rfl, rfl, fun c hc => absurd hc (List.not_mem_nil c)⟩
  | cons c t ih =>
    intro b a
    rw [List.foldl_cons]
    by_cases hgt : area c > a
    · have hsel : selStep (b, a) c = (c, area c) := by
        unfold selStep
        rw [if_pos hgt]
      rw [hsel]
      rcases ih c (area c) with ⟨h1, h2, h3⟩ | ⟨l1, l2, hsplit, he, hlt, hl1, hl2⟩
      · refine Or.inr ⟨[], t, ?_, ?_, ?_, ?_, ?_⟩
        · rw [h1]
          rfl
        · rw [h1, h2]
        · rw [h2]
          exact hgt
        · intro c2 hc2
          exact absurd hc2 (List.not_mem_nil c2)
        · intro c2 hc2
          rw [h2]
          exact h3 c2 hc2
      · refine Or.inr ⟨c :: l1, l2, ?_, he, ?_, ?_, hl2⟩
        · rw [List.cons_append, ← hsplit]
        · exact lt_trans hgt hlt
        · intro c2 hc2
          rcases List.mem_cons.mp hc2 with rfl | hc2t
          · exact hlt
          · exact hl1 c2 hc2t
    · have hsel : selStep (b, a) c = (b, a) := by
        unfold selStep
        rw [if_neg hgt]
      rw [hsel]
      push_neg at hgt
      rcases ih b a with ⟨h1, h2, h3⟩ | ⟨l1, l2, hsplit, he, hlt, hl1, hl2⟩
      · refine Or.inl ⟨h1, h2, ?_⟩
        intro c2 hc2
        rcases List.mem_cons.mp hc2 with rfl | hc2t
        · exact hgt
        · exact h3 c2 hc2t
      · refine Or.inr ⟨c :: l1, l2, ?_, he, hlt, ?_, hl2⟩
        · rw [List.cons_append, ← hsplit]
        · intro c2 hc2
          rcases List.mem_cons.mp hc2 with rfl | hc2t
          · exact lt_of_le_of_lt hgt hlt
          · exact hl1 c2 hc2t

/-- C2: on a non-empty labeler output, `mainFrame` is the earliest
component of maximal bounding-box area: the sequence splits around it,
every component's area is at most its area, and every component before it
has strictly smaller area. -/
theorem claim_C2 (w h : ℕ) (data : List Pix) (c0 : Component) (rest : List Component)
    (hccl : ccl w h data = c0 :: rest) :
    ∃ l1 l2, ccl w h data = l1 ++ selectMain c0 (ccl w h data) :: l2 ∧
      (∀ c ∈ ccl w h data, area c ≤ area (selectMain c0 (ccl w h data))) ∧
      (∀ c ∈ l1, area c < area (selectMain c0 (ccl w h data))) := by
  obtain ⟨hclass, hnodup, hbbox, hdisj, hcover⟩ := ccl_spec w h data
  have hnn : ∀ c ∈ ccl w h data, 0 ≤ area c := by
    intro c hc
    obtain ⟨⟨hminxm, hminxle⟩, ⟨hminym, hminyle⟩, ⟨hmaxxm, hmaxxge⟩, ⟨hmaxym, hmaxyge⟩⟩ :=
      hbbox c hc
    obtain ⟨p, hp, hpx⟩ := List.mem_map.mp hmaxxm
    obtain ⟨q, hq, hqy⟩ := List.mem_map.mp hmaxym
    have h1 : c.minX ≤ c.maxX := hpx ▸ hminxle p hp
    have h2 : c.minY ≤ c.maxY := hqy ▸ hminyle q hq
    unfold area
    have := mul_nonneg (sub_nonneg.mpr h1) (sub_nonneg.mpr h2)
    exact this
  rcases selStep_fold (ccl w h data) c0 (-1) with ⟨h1, h2, h3⟩ |
    ⟨l1, l2, hsplit, he, hlt, hl1, hl2⟩
  · exfalso
    have hm : c0 ∈ ccl w h data := by rw [hccl]; exact List.mem_cons_self _ _
    have hle := h3 c0 hm
    have hge := hnn c0 hm
    omega
  · have hsm : selectMain c0 (ccl w h data) = ((ccl w h data).foldl selStep (c0, -1)).1 := rfl
    refine ⟨l1, l2, ?_, ?_, ?_⟩
    · rw [hsm]
      exact hsplit
    · intro c hc
      rw [hsm, ← he]
      rw [hsplit] at hc
      rcases List.mem_append.mp hc with hcl | hcr
      · exact le_of_lt (hl1 c hcl)
      · rcases List.mem_cons.mp hcr with rfl | hc2
        · exact le_of_eq he.symm
        · exact hl2 c hc2
    · intro c hc
      rw [hsm, ← he]
      exact hl1 c hc

theorem claim_C2_witness :
    ccl 1 1 [blackPix] = (⟨[(0, 0)], 0, 0, 0, 0⟩ : Component) :: [] ∧
    ∃ l1 l2, ccl 1 1 [blackPix] =
        l1 ++ selectMain ⟨[(0, 0)], 0, 0, 0, 0⟩ (ccl 1 1 [blackPix]) :: l2 ∧
      (∀ c ∈ ccl 1 1 [blackPix],
        area c ≤ area (selectMain ⟨[(0, 0)], 0, 0, 0, 0⟩ (ccl 1 1 [blackPix]))) ∧
      (∀ c ∈ l1, area c < area (selectMain ⟨[(0, 0)], 0, 0, 0, 0⟩ (ccl 1 1 [blackPix]))) :=
  ⟨by decide, claim_C2 1 1 [blackPix] ⟨[(0, 0)], 0, 0, 0, 0⟩ [] (by decide)⟩

/-! ### Painting the object mask -/

theorem paintPixels_length (w : ℕ) :
    ∀ (ps : List (ℤ × ℤ)) (d : List Pix), (paintPixels w d ps).length = d.length := by
  intro ps
  induction ps with
  | nil => intro d; rfl
  | cons q t ih =>
    intro d
    have hstep : paintPixels w d (q :: t) =
        paintPixels w (d.set (idxOf w q.1 q.2) blackPix) t := rfl
    rw [hstep, ih, List.length_set]

theorem paintPixels_getPix (w h : ℕ) :
    ∀ (ps : List (ℤ × ℤ)) (d : List Pix) (p : ℤ × ℤ), inRange w h p →
      (∀ q ∈ ps, inRange w h q) → d.length = w * h →
      getPix (paintPixels w d ps) (idxOf w p.1 p.2) =
        if p ∈ ps then blackPix else getPix d (idxOf w p.1 p.2) := by
  intro ps
  induction ps with
  | nil =>
    intro d p hp hq hd
    simp [paintPixels]
  | cons q t ih =>
    intro d p hp hq hd
    have hq0 := hq q (List.mem_cons_self _ _)
    have hstep : paintPixels w d (q :: t) =
        paintPixels w (d.set (idxOf w q.1 q.2) blackPix) t := rfl
    rw [hstep, ih _ p hp (fun q2 h2 => hq q2 (List.mem_cons_of_mem _ h2))
      (by rw [List.length_set]; exact hd)]
    by_cases hpt : p ∈ t
    · rw [if_pos hpt, if_pos (List.mem_cons_of_mem _ hpt)]
    · rw [if_neg hpt]
      by_cases hpq : p = q
      · subst hpq
        rw [if_pos (List.mem_cons_self _ _),
          getPix_set_self _ _ _ (by rw [hd]; exact idxOf_lt hp)]
      · rw [if_neg (fun hmem => by
          rcases List.mem_cons.mp hmem with he | ht
          · exact hpq he
          · exact hpt ht)]
        rw [getPix_set_ne _ _ fun he => hpq (idxOf_inj hq0 hp he).symm]

theorem paintComponents_getPix (w h : ℕ) :
    ∀ (cs : List Component) (d : List Pix) (p : ℤ × ℤ), inRange w h p →
      (∀ c ∈ cs, ∀ q ∈ c.pixels, inRange w h q) → d.length = w * h →
      getPix (paintComponents w d cs) (idxOf w p.1 p.2) =
        if ∃ c ∈ cs, p ∈ c.pixels then blackPix else getPix d (idxOf w p.1 p.2) := by
  intro cs
  induction cs with
  | nil =>
    intro d p hp hq hd
    have he : ¬ ∃ c ∈ ([] : List Component), p ∈ c.pixels := by
      rintro ⟨c, hc, -⟩
      exact absurd hc (List.not_mem_nil c)
    rw [if_neg he]
    rfl
  | cons c t ih =>
    intro d p hp hq hd
    have hstep : paintComponents w d (c :: t) =
        paintComponents w (paintPixels w d c.pixels) t := rfl
    rw [hstep, ih _ p hp (fun c2 h2 => hq c2 (List.mem_cons_of_mem _ h2))
      (by rw [paintPixels_length]; exact hd)]
    by_cases hext : ∃ c2 ∈ t, p ∈ c2.pixels
    · obtain ⟨c2, h2, h3⟩ := hext
      rw [if_pos ⟨c2, h2, h3⟩, if_pos ⟨c2, List.mem_cons_of_mem _ h2, h3⟩]
    · rw [if_neg hext,
        paintPixels_getPix w h c.pixels d p hp (hq c (List.mem_cons_self _ _)) hd]

      by_cases hpc : p ∈ c.pixels
      · rw [if_pos hpc, if_pos ⟨c, List.mem_cons_self _ _, hpc⟩]
      · rw [if_neg hpc, if_neg (by
          rintro ⟨c2, hc2, hp2⟩
          rcases List.mem_cons.mp hc2 with rfl | hc2t
          · exact hpc hp2
          · exact hext ⟨c2, hc2t, hp2⟩)]

theorem selStep_fold_mem :
    ∀ (l : List Component) (b : Component) (a : ℤ),
      (l.foldl selStep (b, a)).1 = b ∨ (l.foldl selStep (b, a)).1 ∈ l := by
  intro l
  induction l with
  | nil => intro b a; exact Or.inl rfl
  | cons c t ih =>
    intro b a
    rw [List.foldl_cons]
    by_cases hgt : area c > a
    · have hsel : selStep (b, a) c = (c, area c) := by
        unfold selStep
        rw [if_pos hgt]
      rw [hsel]
      rcases ih c (area c) with he | hm
      · exact Or.inr (by rw [he]; exact List.mem_cons_self _ _)
      · exact Or.inr (List.mem_cons_of_mem _ hm)
    · have hsel : selStep (b, a) c = (b, a) := by
        unfold selStep
        rw [if_neg hgt]
      rw [hsel]
      rcases ih b a with he | hm
      · exact Or.inl he
      · exact Or.inr (List.mem_cons_of_mem _ hm)

theorem retained_iff {mf : Component} {comps : List Component} {c : Component} :
    c ∈ retained mf comps ↔ (c = mf ∨ (c ∈ comps ∧ c ≠ mf ∧ centerInBox c mf)) := by
  unfold retained
  rw [List.mem_cons, List.mem_filter]
  simp only [Bool.and_eq_true, Bool.not_eq_true', decide_eq_false_iff_not, decide_eq_true_eq]

theorem findObjectContours_cons (m : ImageData) (c0 : Component) (rest : List Component)
    (hccl : ccl m.width m.height m.data = c0 :: rest) :
    findObjectContours m = ⟨m.width, m.height,
      paintComponents m.width (List.replicate (m.width * m.height) whitePix)
        (retained (selectMain c0 (c0 :: rest)) (c0 :: rest))⟩ := by
  unfold findObjectContours
  rw [hccl]

/-- C1: in an object-selection run with at least two components, a
secondary component's member pixels are all painted STROKE in the object
mask iff its bounding-box center lies (inclusively) inside the main
frame's box; and that center is exactly `((minX+maxX)/2, (minY+maxY)/2)`. -/
theorem claim_C1 (m : ImageData) (c0 : Component) (rest : List Component)
    (hccl : ccl m.width m.height m.data = c0 :: rest)
    (hlen2 : 2 ≤ (ccl m.width m.height m.data).length)
    (c : Component) (hc : c ∈ ccl m.width m.height m.data)
    (hne : c ≠ selectMain c0 (ccl m.width m.height m.data)) :
    ((∀ p ∈ c.pixels,
        getPix (findObjectContours m).data (idxOf m.width p.1 p.2) = blackPix) ↔
      centerInBox c (selectMain c0 (ccl m.width m.height m.data))) ∧
    centerX c = ((c.minX : ℚ) + (c.maxX : ℚ)) / 2 ∧
    centerY c = ((c.minY : ℚ) + (c.maxY : ℚ)) / 2 := by
  obtain ⟨hclass, hnodup, hbbox, hdisj, hcover⟩ := ccl_spec m.width m.height m.data
  have hsymm : Symmetric (fun c1 c2 : Component => ∀ p : ℤ × ℤ, p ∈ c1.pixels → p ∉ c2.pixels) := by
    intro c1 c2 h12 p hp2 hp1
    exact h12 p hp1 hp2
  have hdisjAll : ∀ c1 ∈ ccl m.width m.height m.data, ∀ c2 ∈ ccl m.width m.height m.data,
      c1 ≠ c2 → ∀ p : ℤ × ℤ, p ∈ c1.pixels → p ∉ c2.pixels :=
    fun c1 h1 c2 h2 hne12 => hdisj.forall hsymm h1 h2 hne12
  set mf := selectMain c0 (ccl m.width m.height m.data) with hmf
  have hmfmem : mf ∈ ccl m.width m.height m.data := by
    rcases selStep_fold_mem (ccl m.width m.height m.data) c0 (-1) with he | hm
    · rw [hmf]
      show ((ccl m.width m.height m.data).foldl selStep (c0, -1)).1 ∈ _
      rw [he, hccl]
      exact List.mem_cons_self _ _
    · exact hm
  have hpixin : ∀ c2 ∈ ccl m.width m.height m.data, ∀ q ∈ c2.pixels,
      inRange m.width m.height q := by
    intro c2 h2 q hq
    obtain ⟨st, -, -, hiff⟩ := hclass c2 h2
    exact (reach_good_right ((hiff q).mp hq)).1
  have hmf2 : selectMain c0 (c0 :: rest) = mf := by rw [hmf, hccl]
  have hfoc := findObjectContours_cons m c0 rest hccl
  have hpaint : ∀ p : ℤ × ℤ, inRange m.width m.height p →
      getPix (findObjectContours m).data (idxOf m.width p.1 p.2) =
        if ∃ c2 ∈ retained mf (ccl m.width m.height m.data), p ∈ c2.pixels then blackPix
        else whitePix := by
    intro p hp
    rw [hfoc]
    show getPix (paintComponents m.width (List.replicate (m.width * m.height) whitePix)
      (retained (selectMain c0 (c0 :: rest)) (c0 :: rest))) (idxOf m.width p.1 p.2) = _
    rw [hmf2, ← hccl]
    rw [paintComponents_getPix m.width m.height _ _ p hp ?_ (by rw [List.length_replicate])]
    · rw [getPix_replicate _ _ _ (idxOf_lt hp)]
    · intro c2 h2 q hq
      rcases retained_iff.mp h2 with rfl | ⟨h2m, -, -⟩
      · exact hpixin mf hmfmem q hq
      · exact hpixin c2 h2m q hq
  refine ⟨⟨?_, ?_⟩, by unfold centerX; ring, by unfold centerY; ring⟩
  · -- painted everywhere → center in box
    intro hall
    by_contra hcent
    have hnotret : c ∉ retained mf (ccl m.width m.height m.data) := by
      intro hmem
      rcases retained_iff.mp hmem with he | ⟨-, -, hcent2⟩
      · exact hne he
      · exact hcent hcent2
    obtain ⟨st, -, hstmem, -⟩ := hclass c hc
    have hstin : inRange m.width m.height st := hpixin c hc st hstmem
    have hblack := hall st hstmem
    rw [hpaint st hstin] at hblack
    have hnone : ¬ ∃ c2 ∈ retained mf (ccl m.width m.height m.data), st ∈ c2.pixels := by
      rintro ⟨c2, h2, hst2⟩
      have h2ccl : c2 ∈ ccl m.width m.height m.data := by
        rcases retained_iff.mp h2 with rfl | ⟨h2m, -, -⟩
        · exact hmfmem
        · exact h2m
      by_cases he : c2 = c
      · rw [he] at h2
        exact hnotret h2
      · exact hdisjAll c hc c2 h2ccl (fun hce => he hce.symm) st hstmem hst2
    rw [if_neg hnone] at hblack
    exact absurd hblack (by decide)
  · -- center in box → every member pixel painted
    intro hcent p hp
    have hpin : inRange m.width m.height p := hpixin c hc p hp
    rw [hpaint p hpin, if_pos ⟨c, retained_iff.mpr (Or.inr ⟨hc, hne, hcent⟩), hp⟩]

theorem claim_C1_witness :
    ccl twoCompImg.width twoCompImg.height twoCompImg.data = compA :: [compB] ∧
    (((∀ p ∈ compB.pixels,
        getPix (findObjectContours twoCompImg).data
          (idxOf twoCompImg.width p.1 p.2) = blackPix) ↔
      centerInBox compB
        (selectMain compA (ccl twoCompImg.width twoCompImg.height twoCompImg.data))) ∧
      centerX compB = ((compB.minX : ℚ) + (compB.maxX : ℚ)) / 2 ∧
      centerY compB = ((compB.minY : ℚ) + (compB.maxY : ℚ)) / 2) :=
  ⟨by decide, claim_C1 twoCompImg compA [compB] (by decide) (by decide) compB
    (by decide) (by decide)⟩

/-! ### In-bounds access of the two stack loops -/

theorem ffLoopChk_eq (w h : ℕ) :
    ∀ (fuel : ℕ) (stack : List (ℤ × ℤ)) (d : List Pix), d.length = w * h →
      ffLoopChk w h fuel stack d = some (ffLoop w h fuel stack d) := by
  intro fuel
  induction fuel with
  | zero => intro stack d hd; rfl
  | succ n ih =>
    intro stack d hd
    cases stack with
    | nil => rfl
    | cons c rest =>
      obtain ⟨x, y⟩ := c
      by_cases hin : inRange w h (x, y)
      · have hlt : idxOf w x y < d.length := by rw [hd]; exact idxOf_lt hin
        have hget : d[idxOf w x y]? = some (getPix d (idxOf w x y)) := by
          rw [List.getElem?_eq_getElem hlt, getPix_eq_getElem _ _ hlt]
        by_cases hw : isWhite (getPix d (idxOf w x y)) = true
        · have hL : ffLoopChk w h (n + 1) ((x, y) :: rest) d =
              ffLoopChk w h n ((x, y - 1) :: (x, y + 1) :: (x - 1, y) :: (x + 1, y) :: rest)
                (d.set (idxOf w x y) redPix) := by
            simp only [ffLoopChk]
            rw [if_pos hin, hget]
            simp only [hw, if_true]
          have hR : ffLoop w h (n + 1) ((x, y) :: rest) d =
              ffLoop w h n ((x, y - 1) :: (x, y + 1) :: (x - 1, y) :: (x + 1, y) :: rest)
                (d.set (idxOf w x y) redPix) := by
            simp only [ffLoop]
            rw [if_pos hin, if_pos hw]
          rw [hL, hR]
          exact ih _ _ (by rw [List.length_set]; exact hd)
        · have hL : ffLoopChk w h (n + 1) ((x, y) :: rest) d = ffLoopChk w h n rest d := by
            simp only [ffLoopChk]
            rw [if_pos hin, hget]
            simp only [hw, if_false, Bool.false_eq_true]
          have hR : ffLoop w h (n + 1) ((x, y) :: rest) d = ffLoop w h n rest d := by
            simp only [ffLoop]
            rw [if_pos hin, if_neg hw]
          rw [hL, hR]
          exact ih _ _ hd
      · have hL : ffLoopChk w h (n + 1) ((x, y) :: rest) d = ffLoopChk w h n rest d := by
          simp only [ffLoopChk]
          rw [if_neg hin]
        have hR : ffLoop w h (n + 1) ((x, y) :: rest) d = ffLoop w h n rest d := by
          simp only [ffLoop]
          rw [if_neg hin]
        rw [hL, hR]
        exact ih _ _ hd

theorem tryPushChk_foldl_eq (w h : ℕ) (data : List Pix) (hdata : data.length = w * h) :
    ∀ (ns : List (ℤ × ℤ)) (s : DfsState), s.visited.length = w * h →
      ns.foldl (tryPushChk w h data) (some s) = some (ns.foldl (tryPush w h data) s) ∧
      (ns.foldl (tryPush w h data) s).visited.length = w * h := by
  intro ns
  induction ns with
  | nil => intro s hv; exact ⟨rfl, hv⟩
  | cons n t ih =>
    intro s hv
    rw [List.foldl_cons, List.foldl_cons]
    by_cases hin : inRange w h n
    · have hlt1 : idxOf w n.1 n.2 < data.length := by rw [hdata]; exact idxOf_lt hin
      have hlt2 : idxOf w n.1 n.2 < s.visited.length := by rw [hv]; exact idxOf_lt hin
      have hg1 : data[idxOf w n.1 n.2]? = some (getPix data (idxOf w n.1 n.2)) := by
        rw [List.getElem?_eq_getElem hlt1, getPix_eq_getElem _ _ hlt1]
      have hg2 : s.visited[idxOf w n.1 n.2]? =
          some (s.visited.getD (idxOf w n.1 n.2) false) := by
        rw [List.getElem?_eq_getElem hlt2, List.getD_eq_getElem?_getD,
          List.getElem?_eq_getElem hlt2, Option.getD_some]
      by_cases hcond : (getPix data (idxOf w n.1 n.2)).r = 0 ∧
          s.visited.getD (idxOf w n.1 n.2) false = false
      · have hchk : tryPushChk w h data (some s) n = some
            { s with visited := s.visited.set (idxOf w n.1 n.2) true, stack := n :: s.stack } := by
          simp only [tryPushChk]
          rw [if_pos hin, hg1, hg2]
          simp only [hcond, and_self, if_true]
        have hpush : tryPush w h data s n =
            { s with visited := s.visited.set (idxOf w n.1 n.2) true, stack := n :: s.stack } := by
          unfold tryPush
          rw [if_pos hin]
          exact if_pos hcond
        rw [hchk, hpush]
        exact ih _ (by simp only [List.length_set]; exact hv)
      · have hchk : tryPushChk w h data (some s) n = some s := by
          simp only [tryPushChk]
          rw [if_pos hin, hg1, hg2]
          simp only [hcond, if_false]
        have hpush : tryPush w h data s n = s := by
          unfold tryPush
          rw [if_pos hin]
          exact if_neg hcond
        rw [hchk, hpush]
        exact ih _ hv
    · have hchk : tryPushChk w h data (some s) n = some s := by
        simp only [tryPushChk]
        rw [if_neg hin]
      have hpush : tryPush w h data s n = s := by
        unfold tryPush
        rw [if_neg hin]
      rw [hchk, hpush]
      exact ih _ hv

theorem dfsLoopChk_eq (w h : ℕ) (data : List Pix) (hdata : data.length = w * h) :
    ∀ (fuel : ℕ) (s : DfsState), s.visited.length = w * h →
      dfsLoopChk w h data fuel s = some (dfsLoop w h data fuel s) := by
  intro fuel
  induction fuel with
  | zero => intro s hv; rfl
  | succ n ih =>
    intro s hv
    cases hstack : s.stack with
    | nil =>
      have h1 : dfsLoopChk w h data (n + 1) s = some s := by
        simp only [dfsLoopChk, hstack]
      have h2 : dfsLoop w h data (n + 1) s = s := by
        simp only [dfsLoop, hstack]
      rw [h1, h2]
    | cons c rest =>
      obtain ⟨cx, cy⟩ := c
      set s1 : DfsState :=
        { stack := rest, visited := s.visited, pixels := (cx, cy) :: s.pixels,
          minX := min s.minX cx, minY := min s.minY cy,
          maxX := max s.maxX cx, maxY := max s.maxY cy } with hs1
      obtain ⟨hfold, hvlen2⟩ := tryPushChk_foldl_eq w h data hdata (neighborsOf cx cy) s1 hv
      have h1 : dfsLoopChk w h data (n + 1) s =
          dfsLoopChk w h data n ((neighborsOf cx cy).foldl (tryPush w h data) s1) := by
        simp only [dfsLoopChk, hstack]
        rw [hfold]
      have h2 : dfsLoop w h data (n + 1) s =
          dfsLoop w h data n ((neighborsOf cx cy).foldl (tryPush w h data) s1) := by
        simp only [dfsLoop, hstack]
        rfl
      rw [h1, h2]
      exact ih _ hvlen2

/-- C10: both stack loops only touch the buffer inside bounds — the
bounds-checked mirrors, which fail on any out-of-range read or write,
always succeed and compute the same result, for any stack contents in the
flood fill (out-of-range coordinates may be pushed and are filtered when
popped) and for the labeling DFS whose neighbor accesses are guarded. -/
theorem claim_C10 :
    (∀ (w h fuel : ℕ) (stack : List (ℤ × ℤ)) (d : List Pix), d.length = w * h →
      ffLoopChk w h fuel stack d = some (ffLoop w h fuel stack d)) ∧
    (∀ (w h : ℕ) (data : List Pix) (fuel : ℕ) (s : DfsState),
      data.length = w * h → s.visited.length = w * h →
      dfsLoopChk w h data fuel s = some (dfsLoop w h data fuel s)) :=
  ⟨fun w h fuel stack d hd => ffLoopChk_eq w h fuel stack d hd,
    fun w h data fuel s hd hv => dfsLoopChk_eq w h data hd fuel s hv⟩

theorem claim_C10_witness :
    ([whitePix] : List Pix).length = 1 * 1 ∧
    ffLoopChk 1 1 5 [(0, 0)] [whitePix] = some (ffLoop 1 1 5 [(0, 0)] [whitePix]) :=
  ⟨by decide, claim_C10.1 1 1 5 [(0, 0)] [whitePix] (by decide)⟩

end Sketch
